import Mathlib

/-!
Verification of the is-vpn CIDR range-indexing engine.

This file gives a shallow embedding, in Lean 4, of the JavaScript sources of
the is-vpn repository (the optimized module with the bucketed IPv4/IPv6
indexes, and the older interval-tree module mod.js), and proves properties of
the embedded definitions.

Modelling conventions:
* JavaScript numbers holding 32-bit unsigned values are modelled as Nat with
  explicit wraparound written as a remainder by 4294967296 exactly where the
  source applies a ToUint32 coercion (a zero-fill right shift by 0, a bitwise
  mask, or Math.imul followed by such a shift).  Where the source adds 1 to a
  JavaScript number without any coercion (the 32-bit merger), the model also
  adds 1 without reducing, since IEEE doubles represent these sums exactly.
* Strings are processed through their character lists; character codes are
  the Unicode code points, as charCodeAt returns for the BMP characters the
  parsers inspect.
* Typed-array writes that fall outside the array bounds are no-ops in
  JavaScript; the embedding models them as no-ops as well.
* Unbounded while-loops of the source (the hash-table probes) take an
  explicit fuel argument; exhaustion is modelled by an Option result, and the
  development proves that the fuel chosen never runs out on tables the
  builder produces.
-/

/-! ## Ranges and the 32-bit merger (mergeRanges32) -/

/-- Range of 32-bit addresses, inclusive at both ends.  The source stores
objects with fields start and end; end is a Lean keyword, so the second field
is named stop here. -/
structure Range32 where
  start : ℕ
  stop : ℕ
deriving DecidableEq, Repr

/-- Comparator of the source sort call in mergeRanges32, turned into the
boolean relation "a sorts no later than b": the comparator
(a.start - b.start) || (a.end - b.end) is nonpositive exactly for the
lexicographic order on (start, end). -/
def le32 (a b : Range32) : Bool :=
  decide (a.start < b.start) || (decide (a.start = b.start) && decide (a.stop ≤ b.stop))

/-- Sorting order of mergeRanges32 as a propositional relation, for use with
the sort.  Two ranges equivalent under this order are equal values, so every
sort that orders by it computes the same list as the source's stable sort. -/
def R32 (a b : Range32) : Prop := le32 a b = true

instance : DecidableRel R32 := fun a b => instDecidableEqBool (le32 a b) true

instance : IsTotal Range32 R32 :=
  ⟨by intro a b; simp [R32, le32]; omega⟩

instance : IsTrans Range32 R32 :=
  ⟨by intro a b c hab hbc; simp [R32, le32] at hab hbc ⊢; omega⟩

instance : IsAntisymm Range32 R32 :=
  ⟨by intro a b hab hba; cases a; cases b; simp [R32, le32] at hab hba ⊢; omega⟩

/-- Set of addresses covered by a list of inclusive ranges. -/
def covered (l : List Range32) (a : ℕ) : Prop :=
  ∃ r ∈ l, r.start ≤ a ∧ a ≤ r.stop

/-- Gap invariant of a merged range set: every consecutive pair is separated
by at least one excluded address. -/
def Gapped (l : List Range32) : Prop :=
  l.Chain' fun a b => a.stop + 1 < b.start

/-- Walk of the sorted list in mergeRanges32: last is the range currently
being grown; a range starting more than one past the current end is flushed,
otherwise the current end is extended to the larger of the two ends.  The
sum last.end + 1 is an exact JavaScript double, so no wraparound occurs. -/
def mergeWalk32 (last : Range32) : List Range32 → List Range32
  | [] => [last]
  | cur :: rest =>
    if last.stop + 1 < cur.start then
      last :: mergeWalk32 cur rest
    else if last.stop < cur.stop then
      mergeWalk32 ⟨last.start, cur.stop⟩ rest
    else
      mergeWalk32 last rest

/-- Model of mergeRanges32: sort by (start, end) ascending, then coalesce
overlapping or adjacent ranges.  The source mutates the array and the range
objects in place; the model computes the same list of values. -/
def mergeRanges32 (ranges : List Range32) : List Range32 :=
  match ranges.insertionSort R32 with
  | [] => []
  | r :: rs => mergeWalk32 r rs

/-! ## 128-bit words and the 128-bit merger (mergeRanges128) -/

/-- Four 32-bit unsigned words forming one 128-bit big-endian value, as the
source represents a parsed IPv6 address. -/
structure Word128 where
  p0 : ℕ
  p1 : ℕ
  p2 : ℕ
  p3 : ℕ
deriving DecidableEq, Repr

/-- Range of 128-bit addresses, inclusive at both ends. -/
structure Range128 where
  start : Word128
  stop : Word128
deriving DecidableEq, Repr

/-- Model of compare128 from the source: word-by-word lexicographic
three-way comparison. -/
def compare128 (a0 a1 a2 a3 b0 b1 b2 b3 : ℕ) : Int :=
  if a0 ≠ b0 then (if a0 < b0 then -1 else 1)
  else if a1 ≠ b1 then (if a1 < b1 then -1 else 1)
  else if a2 ≠ b2 then (if a2 < b2 then -1 else 1)
  else if a3 ≠ b3 then (if a3 < b3 then -1 else 1)
  else 0

/-- Comparison of two 128-bit words via compare128. -/
def cmpW (a b : Word128) : Int :=
  compare128 a.p0 a.p1 a.p2 a.p3 b.p0 b.p1 b.p2 b.p3

/-- Model of addOne128 from the source: increment with per-word carry.  The
top word is incremented with a ToUint32 coercion, so incrementing the
all-ones value wraps around to zero. -/
def addOne128 (p0 p1 p2 p3 : ℕ) : Word128 :=
  if p3 ≠ 0xFFFFFFFF then ⟨p0, p1, p2, (p3 + 1) % 4294967296⟩
  else if p2 ≠ 0xFFFFFFFF then ⟨p0, p1, (p2 + 1) % 4294967296, 0⟩
  else if p1 ≠ 0xFFFFFFFF then ⟨p0, (p1 + 1) % 4294967296, 0, 0⟩
  else ⟨(p0 + 1) % 4294967296, 0, 0, 0⟩

/-- Successor of the end word as mergeRanges128 computes it. -/
def succ128 (w : Word128) : Word128 := addOne128 w.p0 w.p1 w.p2 w.p3

/-- Comparator of the source sort call in mergeRanges128, as the boolean
relation "a sorts no later than b": compare the starts, then the ends. -/
def le128 (a b : Range128) : Bool :=
  if cmpW a.start b.start ≠ 0 then decide (cmpW a.start b.start < 0)
  else decide (cmpW a.stop b.stop ≤ 0)

/-- Sorting order of mergeRanges128 as a propositional relation. -/
def R128 (a b : Range128) : Prop := le128 a b = true

instance : DecidableRel R128 := fun a b => instDecidableEqBool (le128 a b) true

/-- Walk of the sorted list in mergeRanges128, mirroring mergeWalk32 but with
compare128 and addOne128 in place of the exact arithmetic. -/
def mergeWalk128 (last : Range128) : List Range128 → List Range128
  | [] => [last]
  | cur :: rest =>
    if cmpW cur.start (succ128 last.stop) > 0 then
      last :: mergeWalk128 cur rest
    else if cmpW cur.stop last.stop > 0 then
      mergeWalk128 ⟨last.start, cur.stop⟩ rest
    else
      mergeWalk128 last rest

/-- Model of mergeRanges128: sort by (start, end) under the 128-bit
lexicographic comparison, then coalesce. -/
def mergeRanges128 (ranges : List Range128) : List Range128 :=
  match ranges.insertionSort R128 with
  | [] => []
  | r :: rs => mergeWalk128 r rs

/-- Numeric value of a four-word 128-bit quantity. -/
def val128 (w : Word128) : ℕ :=
  ((w.p0 * 4294967296 + w.p1) * 4294967296 + w.p2) * 4294967296 + w.p3

/-- Mapping of a 128-bit range to the pair of numeric values of its ends. -/
def valRange (r : Range128) : Range32 := ⟨val128 r.start, val128 r.stop⟩

/-- Wellformedness of a word: each field fits in 32 bits, as every word the
parsers and the CIDR normalizer produce does. -/
def wfW (w : Word128) : Prop :=
  w.p0 < 4294967296 ∧ w.p1 < 4294967296 ∧ w.p2 < 4294967296 ∧ w.p3 < 4294967296

/-- Wellformedness of a 128-bit range: both endpoint words are in bounds. -/
def wfR (r : Range128) : Prop := wfW r.start ∧ wfW r.stop

instance (w : Word128) : Decidable (wfW w) := by unfold wfW; infer_instance

instance (r : Range128) : Decidable (wfR r) := by unfold wfR; infer_instance

/-! ## Character scanning and IPv4 address parsing (ipv4ToInt) -/

/-- Characters of a query string before the first slash or percent, the
region every parser and the dispatcher scan. -/
def bodyChars : List Char → List Char
  | [] => []
  | c :: cs => if c.toNat = 47 ∨ c.toNat = 37 then [] else c :: bodyChars cs

/-- Scanning loop of ipv4ToInt with its three state variables.  Digits
accumulate into the octet, a dot shifts the octet into num (failure past
three dots), a slash or percent ends the scan early, anything else fails;
at the end exactly three dots must have been seen.  The JavaScript
(num << 8) | octet runs in signed 32-bit arithmetic and the final result is
coerced with a zero-fill shift; the accumulated value always fits in 32
bits, so plain Nat shift-or computes the same unsigned result. -/
def ipv4Scan (num octet octetCount : ℕ) : List Char → Option ℕ
  | [] =>
    if octetCount ≠ 3 then none else some ((num <<< 8) ||| octet)
  | c :: cs =>
    if 48 ≤ c.toNat ∧ c.toNat ≤ 57 then
      let octet2 := octet * 10 + (c.toNat - 48)
      if octet2 > 255 then none else ipv4Scan num octet2 octetCount cs
    else if c.toNat = 46 then
      if octetCount ≥ 3 then none
      else ipv4Scan ((num <<< 8) ||| octet) 0 (octetCount + 1) cs
    else if c.toNat = 47 ∨ c.toNat = 37 then
      if octetCount ≠ 3 then none else some ((num <<< 8) ||| octet)
    else none

/-- Model of ipv4ToInt: parse a dotted-quad IPv4 address, stopping at a
slash or percent. -/
def ipv4ToInt (ip : String) : Option ℕ := ipv4Scan 0 0 0 ip.toList

/-! ## JavaScript Number coercion of strings (model)

The CIDR normalizers call Number(prefixStr).  The model below follows the
ECMAScript StringNumericLiteral grammar: surrounding white space is trimmed,
the empty remainder denotes 0, a 0x/0o/0b prefix introduces a radix literal,
and otherwise an optionally signed decimal literal with optional fraction
and exponent is read.  NaN and the infinities are collapsed into the none
result, which is sound here because the only consumer rejects both through
the Number.isInteger test.  Values are exact rationals; rounding to IEEE
doubles is not modelled, which is observationally equal for every prefix
field whose significand fits the double precision, in particular for all
decimal-digit fields. -/

/-- White space characters trimmed by the Number coercion (ASCII white
space, line terminators, no-break space and the BOM; the rarer Unicode
space separators are omitted). -/
def isJsWs (c : Char) : Bool :=
  decide (c.toNat = 32 ∨ c.toNat = 9 ∨ c.toNat = 10 ∨ c.toNat = 11 ∨ c.toNat = 12 ∨
    c.toNat = 13 ∨ c.toNat = 160 ∨ c.toNat = 65279)

/-- Value of a hexadecimal digit character, 0-9, a-f or A-F. -/
def hexDigitVal (c : Char) : Option ℕ :=
  if 48 ≤ c.toNat ∧ c.toNat ≤ 57 then some (c.toNat - 48)
  else if 97 ≤ c.toNat ∧ c.toNat ≤ 102 then some (c.toNat - 87)
  else if 65 ≤ c.toNat ∧ c.toNat ≤ 70 then some (c.toNat - 55)
  else none

/-- Value of an octal digit character. -/
def octDigitVal (c : Char) : Option ℕ :=
  if 48 ≤ c.toNat ∧ c.toNat ≤ 55 then some (c.toNat - 48) else none

/-- Value of a binary digit character. -/
def binDigitVal (c : Char) : Option ℕ :=
  if c.toNat = 48 ∨ c.toNat = 49 then some (c.toNat - 48) else none

/-- Decimal value of a digit list (most significant first). -/
def digitsToNat (ds : List Char) : ℕ :=
  ds.foldl (fun a c => a * 10 + (c.toNat - 48)) 0

/-- Value of a nonempty digit list in the given radix; none on a bad digit
or on the empty list. -/
def radixToNat (dval : Char → Option ℕ) (b : ℕ) (ds : List Char) : Option ℕ :=
  match ds with
  | [] => none
  | _ =>
    ds.foldl (fun acc c => acc.bind fun a => (dval c).map fun d => a * b + d) (some 0)

/-- Unreduced rational value of a numeric literal: a sign and a
numerator/denominator pair of naturals, with a positive denominator.  The
normalizers only test Number.isInteger and compare against integer bounds,
and an unreduced exact fraction decides both, so no gcd normalization is
needed (Rat normalization would also not reduce inside the kernel). -/
structure JsNum where
  neg : Bool
  num : ℕ
  den : ℕ
deriving DecidableEq, Repr

/-- Exponent suffix of a decimal literal: empty, or e/E with an optional
sign and at least one digit, ending the literal; a positive exponent scales
the numerator and a negative one the denominator. -/
def parseExpPart (num den : ℕ) (rest : List Char) : Option (ℕ × ℕ) :=
  match rest with
  | [] => some (num, den)
  | e :: rest2 =>
    if e.toNat = 101 ∨ e.toNat = 69 then
      let signAndDigits : Bool × List Char :=
        match rest2 with
        | c :: r =>
          if c.toNat = 43 then (false, r)
          else if c.toNat = 45 then (true, r)
          else (false, rest2)
        | [] => (false, [])
      match signAndDigits with
      | (eneg, ds) =>
        if ds ≠ [] ∧ ds.all Char.isDigit then
          if eneg then some (num, den * 10 ^ digitsToNat ds)
          else some (num * 10 ^ digitsToNat ds, den)
        else none
    else none

/-- Unsigned decimal literal: digits, digits.digits, digits., or .digits,
each with an optional exponent. -/
def parseUnsignedDec (cs : List Char) : Option (ℕ × ℕ) :=
  let ip := cs.takeWhile Char.isDigit
  let rest := cs.dropWhile Char.isDigit
  match rest with
  | c :: rest2 =>
    if c.toNat = 46 then
      let fp := rest2.takeWhile Char.isDigit
      let rest3 := rest2.dropWhile Char.isDigit
      if ip = [] ∧ fp = [] then none
      else parseExpPart (digitsToNat (ip ++ fp)) (10 ^ fp.length) rest3
    else if ip = [] then none
    else parseExpPart (digitsToNat ip) 1 rest
  | [] => if ip = [] then none else some (digitsToNat ip, 1)

/-- Signed decimal literal; the word Infinity yields none, merged with NaN
as explained above. -/
def parseSignedDec (cs : List Char) : Option JsNum :=
  let signAndBody : Bool × List Char :=
    match cs with
    | c :: r =>
      if c.toNat = 43 then (false, r)
      else if c.toNat = 45 then (true, r)
      else (false, cs)
    | [] => (false, [])
  match signAndBody with
  | (neg, body) =>
    if body = [ 'I', 'n', 'f', 'i', 'n', 'i', 't', 'y' ] then none
    else (parseUnsignedDec body).map fun p => ⟨neg, p.1, p.2⟩

/-- Model of the Number coercion on a character list. -/
def jsNumberOfChars (cs0 : List Char) : Option JsNum :=
  let cs := ((cs0.dropWhile fun c => isJsWs c).reverse.dropWhile fun c => isJsWs c).reverse
  match cs with
  | [] => some ⟨false, 0, 1⟩
  | z :: x :: rest =>
    if z.toNat = 48 ∧ (x.toNat = 120 ∨ x.toNat = 88) then
      (radixToNat hexDigitVal 16 rest).map fun n => ⟨false, n, 1⟩
    else if z.toNat = 48 ∧ (x.toNat = 111 ∨ x.toNat = 79) then
      (radixToNat octDigitVal 8 rest).map fun n => ⟨false, n, 1⟩
    else if z.toNat = 48 ∧ (x.toNat = 98 ∨ x.toNat = 66) then
      (radixToNat binDigitVal 2 rest).map fun n => ⟨false, n, 1⟩
    else parseSignedDec cs
  | _ => parseSignedDec cs

/-- Model of the Number coercion on a string. -/
def jsNumber (s : String) : Option JsNum := jsNumberOfChars s.toList

/-- Check of the normalizers on the coerced prefix: NaN and the infinities
fail, a non-integral value fails Number.isInteger, a negative value or one
above the bound fails the range test; otherwise the integer value is
produced. -/
def checkedPrefixVal (j : Option JsNum) (bound : ℕ) : Option ℕ :=
  match j with
  | none => none
  | some j =>
    if j.num % j.den ≠ 0 then none
    else if j.neg ∧ j.num ≠ 0 then none
    else if j.num / j.den > bound then none
    else some (j.num / j.den)

/-! ## CIDR normalization (ipv4CidrToRange) -/

/-- Model of String.prototype.split with a one-character separator. -/
def splitOnChar (sep : Char) : List Char → List (List Char)
  | [] => [[]]
  | c :: cs =>
    if c = sep then [] :: splitOnChar sep cs
    else
      match splitOnChar sep cs with
      | [] => [[c]]
      | p :: ps => (c :: p) :: ps

/-- Prefix mask of an IPv4 CIDR: zero for prefix 0, otherwise 0xFFFFFFFF
shifted left by 32 - prefix in 32-bit arithmetic. -/
def mask4 (pfx : ℕ) : ℕ :=
  if pfx = 0 then 0 else (0xFFFFFFFF <<< (32 - pfx)) % 4294967296

/-- Core of ipv4CidrToRange on character lists: split at the slashes, coerce
the prefix field with Number and require an integer in 0..32, parse the
address, and apply the mask.  The JavaScript bitwise operations run on
signed 32-bit integers followed by zero-fill coercions; all values fit in 32
bits, so Nat and, or and xor with the all-ones mask compute the same
unsigned results. -/
def ipv4CidrToRangeCore (cidr : List Char) : Option Range32 :=
  let parts := splitOnChar '/' cidr
  let baseIp := parts.headD []
  match parts[1]? with
  | none => none
  | some prefixStr =>
    match checkedPrefixVal (jsNumberOfChars prefixStr) 32 with
    | none => none
    | some pfx =>
      match ipv4Scan 0 0 0 baseIp with
      | none => none
      | some ipInt =>
        let mask := mask4 pfx
        let start := ipInt &&& mask
        some ⟨start, start ||| (mask ^^^ 0xFFFFFFFF)⟩

/-- Model of ipv4CidrToRange. -/
def ipv4CidrToRange (cidr : String) : Option Range32 := ipv4CidrToRangeCore cidr.toList

/-! ## IPv6 address parsing (ipv6ToParts) -/

/-- Model of HEX_TABLE: value of a hex digit character code below 128, or
-1 for every other code. -/
def hexTable (code : ℕ) : Int :=
  if 48 ≤ code ∧ code ≤ 57 then (code : Int) - 48
  else if 65 ≤ code ∧ code ≤ 70 then (code : Int) - 55
  else if 97 ≤ code ∧ code ≤ 102 then (code : Int) - 87
  else -1

/-- Write into the eight-entry segment scratch array; out-of-bounds writes
are no-ops, as they are on a JavaScript typed array. -/
def setSeg (segs : List ℕ) (i v : ℕ) : List ℕ := segs.set i v

/-- Scanning loop of parseIpv4Tail, accumulating the embedded dotted quad
into the two 16-bit values a and b.  The source updates a and b at each dot
and once more after the loop, and accepts exactly four octets; updates made
on paths that end in failure never surface, so the model performs the final
update only in the accepting case. -/
def ipv4TailScan (octet octetCount a b : ℕ) : List Char → Option (ℕ × ℕ)
  | [] =>
    if octetCount = 3 then some (a, b ||| octet) else none
  | c :: cs =>
    if 48 ≤ c.toNat ∧ c.toNat ≤ 57 then
      let octet2 := octet * 10 + (c.toNat - 48)
      if octet2 > 255 then none else ipv4TailScan octet2 octetCount a b cs
    else if c.toNat = 46 then
      if octetCount = 0 then ipv4TailScan 0 1 (octet <<< 8) b cs
      else if octetCount = 1 then ipv4TailScan 0 2 (a ||| octet) b cs
      else if octetCount = 2 then ipv4TailScan 0 3 a (octet <<< 8) cs
      else none
    else none

/-- Downward copy loop of the :: expansion: for i from the top segment index
down to the gap index, the segment is moved right by the gap width.  The
loop reads each source position before any write can reach it, so reading
from the updated array matches the in-place JavaScript loop. -/
def segsShiftDown (missing d : ℕ) : ℕ → List ℕ → List ℕ
  | 0, segs => segs
  | n + 1, segs =>
    segsShiftDown missing d n (setSeg segs (d + n + missing) (segs.getD (d + n) 0))

/-- Zero fill of the :: gap: count entries starting at index d. -/
def segsZeroFill (d : ℕ) : ℕ → List ℕ → List ℕ
  | 0, segs => segs
  | n + 1, segs => segsZeroFill (d + 1) n (setSeg segs d 0)

/-- Packing of the eight 16-bit segments into four 32-bit words, two
segments per word. -/
def packSegs (segs : List ℕ) : Word128 :=
  ⟨(segs.getD 0 0 <<< 16) ||| segs.getD 1 0,
   (segs.getD 2 0 <<< 16) ||| segs.getD 3 0,
   (segs.getD 4 0 <<< 16) ||| segs.getD 5 0,
   (segs.getD 6 0 <<< 16) ||| segs.getD 7 0⟩

/-- After-scan processing of the general IPv6 path: expand the one :: gap by
shifting the tail segments right and zero-filling, require exactly eight
segments, and pack. -/
def ipv6Finish (segs : List ℕ) (segIndex : ℕ) (dci : Option ℕ) : Option Word128 :=
  match dci with
  | none => if segIndex ≠ 8 then none else some (packSegs segs)
  | some d =>
    if segIndex > 8 then none
    else
      let missing := 8 - segIndex
      let segs2 := segsShiftDown missing d (segIndex - d) segs
      let segs3 := segsZeroFill d missing segs2
      if segIndex + missing ≠ 8 then none else some (packSegs segs3)

/-- General scanning path of ipv6ToParts.  The state mirrors the source
variables: the segment scratch list, the count of stored segments, the hex
accumulator and its digit count, the position of the one permitted :: (none
when unseen), and the suffix of the body starting at the current segment
(the source tracks the same position as segmentStart, used only to hand the
rest of the body to the IPv4-tail parser). -/
def ipv6Scan (segs : List ℕ) (segIndex segValue segDigits : ℕ) (dci : Option ℕ)
    (fromStart : List Char) : List Char → Option Word128
  | [] =>
    if segDigits > 0 then ipv6Finish (setSeg segs segIndex segValue) (segIndex + 1) dci
    else ipv6Finish segs segIndex dci
  | [c] =>
    if c.toNat = 58 then
      if segDigits = 0 then none
      else
        let segs2 := setSeg segs segIndex segValue
        if segIndex + 1 > 8 then none
        else ipv6Scan segs2 (segIndex + 1) 0 0 dci [] []
    else if c.toNat = 46 then
      match ipv4TailScan 0 0 0 0 fromStart with
      | none => none
      | some (a, b) =>
        if segIndex + 1 ≥ 8 then none
        else ipv6Finish (setSeg (setSeg segs segIndex a) (segIndex + 1) b) (segIndex + 2) dci
    else if c.toNat > 127 then none
    else
      let nib := hexTable c.toNat
      if nib < 0 then none
      else
        let segValue2 := (segValue <<< 4) ||| nib.toNat
        if segDigits + 1 > 4 then none
        else ipv6Scan segs segIndex segValue2 (segDigits + 1) dci fromStart []
  | c :: c2 :: cs2 =>
    if c.toNat = 58 then
      if c2.toNat = 58 then
        if dci ≠ none then none
        else
          let stored : List ℕ × ℕ :=
            if segDigits > 0 then (setSeg segs segIndex segValue, segIndex + 1)
            else (segs, segIndex)
          match stored with
          | (segs2, segIndex2) =>
            if segIndex2 > 8 then none
            else ipv6Scan segs2 segIndex2 0 0 (some segIndex2) cs2 cs2
      else
        if segDigits = 0 then none
        else
          let segs2 := setSeg segs segIndex segValue
          if segIndex + 1 > 8 then none
          else ipv6Scan segs2 (segIndex + 1) 0 0 dci (c2 :: cs2) (c2 :: cs2)
    else if c.toNat = 46 then
      match ipv4TailScan 0 0 0 0 fromStart with
      | none => none
      | some (a, b) =>
        if segIndex + 1 ≥ 8 then none
        else ipv6Finish (setSeg (setSeg segs segIndex a) (segIndex + 1) b) (segIndex + 2) dci
    else if c.toNat > 127 then none
    else
      let nib := hexTable c.toNat
      if nib < 0 then none
      else
        let segValue2 := (segValue <<< 4) ||| nib.toNat
        if segDigits + 1 > 4 then none
        else ipv6Scan segs segIndex segValue2 (segDigits + 1) dci fromStart (c2 :: cs2)

/-- Fixed-offset fast path of ipv6ToParts: decode the eight 4-hex-digit
groups of a fully-expanded 39-character body.  Any non-hex character among
the group positions fails the whole parse without falling back to the
general path, exactly as in the source. -/
def ipv6FastPath (body : List Char) : Option Word128 :=
  let grp : ℕ → Option ℕ := fun o =>
    let c0 := (body.getD o ' ').toNat
    let c1 := (body.getD (o + 1) ' ').toNat
    let c2 := (body.getD (o + 2) ' ').toNat
    let c3 := (body.getD (o + 3) ' ').toNat
    if c0 > 127 ∨ c1 > 127 ∨ c2 > 127 ∨ c3 > 127 then none
    else
      let n0 := hexTable c0
      let n1 := hexTable c1
      let n2 := hexTable c2
      let n3 := hexTable c3
      if n0 < 0 ∨ n1 < 0 ∨ n2 < 0 ∨ n3 < 0 then none
      else some ((n0.toNat <<< 12) ||| (n1.toNat <<< 8) ||| (n2.toNat <<< 4) ||| n3.toNat)
  match grp 0, grp 5, grp 10, grp 15, grp 20, grp 25, grp 30, grp 35 with
  | some g0, some g1, some g2, some g3, some g4, some g5, some g6, some g7 =>
    some ⟨(g0 <<< 16) ||| g1, (g2 <<< 16) ||| g3, (g4 <<< 16) ||| g5, (g6 <<< 16) ||| g7⟩
  | _, _, _, _, _, _, _, _ => none

/-- Check of the seven fixed colon positions of the fully-expanded form. -/
def expandedColonsOk (body : List Char) : Bool :=
  decide (body.getD 4 ' ' = ':' ∧ body.getD 9 ' ' = ':' ∧ body.getD 14 ' ' = ':' ∧
    body.getD 19 ' ' = ':' ∧ body.getD 24 ' ' = ':' ∧ body.getD 29 ' ' = ':' ∧
    body.getD 34 ' ' = ':')

/-- Core of ipv6ToParts on the character list of the input: take the body
before any slash or percent, use the fixed-offset fast path when the body is
39 characters with the expected colon positions, and the general scan
otherwise. -/
def ipv6ToPartsCore (chars : List Char) : Option Word128 :=
  let body := bodyChars chars
  if body.length = 39 ∧ expandedColonsOk body then ipv6FastPath body
  else ipv6Scan (List.replicate 8 0) 0 0 0 none body body

/-- Model of ipv6ToParts. -/
def ipv6ToParts (ip : String) : Option Word128 := ipv6ToPartsCore ip.toList

/-! ## IPv6 CIDR normalization (ipv6CidrToRange) -/

/-- Start and end of one 32-bit word of an IPv6 CIDR range: the word is left
whole below the prefix boundary, cleared and filled above it, and masked
across it. -/
def cidrWordRange (w pfx i : ℕ) : ℕ × ℕ :=
  let bitStart := i * 32
  if pfx ≥ bitStart + 32 then (w, w)
  else if pfx ≤ bitStart then (0, 0xFFFFFFFF)
  else
    let bits := pfx - bitStart
    let mask := if bits = 0 then 0 else (0xFFFFFFFF <<< (32 - bits)) % 4294967296
    let s := w &&& mask
    (s, s ||| (mask ^^^ 0xFFFFFFFF))

/-- Core of ipv6CidrToRange on character lists. -/
def ipv6CidrToRangeCore (cidr : List Char) : Option Range128 :=
  let parts := splitOnChar '/' cidr
  let baseIp := parts.headD []
  match parts[1]? with
  | none => none
  | some prefixStr =>
    match checkedPrefixVal (jsNumberOfChars prefixStr) 128 with
    | none => none
    | some pfx =>
      match ipv6ToPartsCore baseIp with
      | none => none
      | some w =>
        let r0 := cidrWordRange w.p0 pfx 0
        let r1 := cidrWordRange w.p1 pfx 1
        let r2 := cidrWordRange w.p2 pfx 2
        let r3 := cidrWordRange w.p3 pfx 3
        some ⟨⟨r0.1, r1.1, r2.1, r3.1⟩, ⟨r0.2, r1.2, r2.2, r3.2⟩⟩

/-- Model of ipv6CidrToRange. -/
def ipv6CidrToRange (cidr : String) : Option Range128 := ipv6CidrToRangeCore cidr.toList

/-! ## Association-list helpers

JavaScript Map and Set preserve insertion order and the builders iterate
them; plain arrays indexed by bucket number default to zero.  Sparse
association lists with first-match lookup model both: setting an existing
key updates it in place, setting a new key appends (as a Map re-insertion
after a delete appends), and lookups fall back to the dense default. -/

/-- Update the first binding of a key, or append a new binding. -/
def assocSet (k : ℕ) (v : α) : List (ℕ × α) → List (ℕ × α)
  | [] => [(k, v)]
  | (k0, v0) :: t => if k0 = k then (k, v) :: t else (k0, v0) :: assocSet k v t

/-- Remove the first binding of a key. -/
def assocErase (k : ℕ) : List (ℕ × α) → List (ℕ × α)
  | [] => []
  | (k0, v0) :: t => if k0 = k then t else (k0, v0) :: assocErase k t

/-! ## The IPv4 index (buildIpv4IndexFromCidrs, containsIpv4) -/

/-- IPv4 index: bucket states, per-bucket offsets and counts (sparse with
default zero, as the dense zero-initialized arrays of the source), and the
two packed arrays of low-16-bit sub-range bounds. -/
structure Ipv4Index where
  bucketType : List (ℕ × ℕ)
  offsets : List (ℕ × ℕ)
  counts : List (ℕ × ℕ)
  starts : List ℕ
  ends : List ℕ
deriving Repr

/-- One step of the bucket-splitting pass of buildIpv4IndexFromCidrs: walk
the high-16-bit buckets a merged range touches, marking fully covered
buckets full and appending partial spans to the bucket's pending list. -/
def ipv4BucketStep (st : List (ℕ × ℕ) × List (ℕ × List Range32)) (r : Range32) :
    List (ℕ × ℕ) × List (ℕ × List Range32) :=
  let startHigh := r.start >>> 16
  let endHigh := r.stop >>> 16
  (List.range (endHigh + 1 - startHigh)).foldl
    (fun st2 k =>
      match st2 with
      | (bt, bl) =>
        let high := startHigh + k
        if (bt.lookup high).getD 0 = 1 then (bt, bl)
        else
          let lowStart := if high = startHigh then r.start &&& 0xFFFF else 0
          let lowEnd := if high = endHigh then r.stop &&& 0xFFFF else 0xFFFF
          if lowStart = 0 ∧ lowEnd = 0xFFFF then (assocSet high 1 bt, assocErase high bl)
          else
            match bl.lookup high with
            | none => (bt, bl ++ [(high, [Range32.mk lowStart lowEnd])])
            | some list => (bt, assocSet high (list ++ [Range32.mk lowStart lowEnd]) bl))
    st

/-- Per-bucket merge of the pending low-range list, the same sort-and-walk
the 32-bit merger performs. -/
def mergeLowList (list : List Range32) : List Range32 :=
  match list.insertionSort R32 with
  | [] => []
  | x :: xs => mergeWalk32 x xs

/-- Second and third passes of buildIpv4IndexFromCidrs over the touched
buckets in ascending order: merge each pending list, promote full-span
results, and flatten the rest into the packed arrays, recording offset and
count.  The source runs the promote pass and the flatten pass as two
ascending sweeps of the whole bucket array; one ascending sweep of the
touched buckets computes the same result. -/
def ipv4Flatten (bl : List (ℕ × List Range32)) :
    List (ℕ × ℕ) → ℕ → List ℕ →
    (List (ℕ × ℕ) × List (ℕ × ℕ) × List (ℕ × ℕ) × List ℕ × List ℕ)
  | bt, _, [] => (bt, [], [], [], [])
  | bt, cursor, k :: krest =>
    let list := (bl.lookup k).getD []
    if (bt.lookup k).getD 0 = 1 then ipv4Flatten bl bt cursor krest
    else
      let mergedLow := mergeLowList list
      if mergedLow = [Range32.mk 0 0xFFFF] then
        ipv4Flatten bl (assocSet k 1 bt) cursor krest
      else
        match ipv4Flatten bl (assocSet k 2 bt) (cursor + mergedLow.length) krest with
        | (bt2, offs, cnts, starts, ends) =>
          (bt2,
           assocSet k cursor offs,
           assocSet k mergedLow.length cnts,
           mergedLow.map Range32.start ++ starts,
           mergedLow.map Range32.stop ++ ends)

/-- Model of buildIpv4IndexFromCidrs. -/
def buildIpv4IndexFromCidrs (cidrs : List String) : Ipv4Index :=
  let ranges := cidrs.filterMap ipv4CidrToRange
  let merged := mergeRanges32 ranges
  match merged.foldl ipv4BucketStep ([], []) with
  | (bt1, bl1) =>
    let keys := (bl1.map Prod.fst).insertionSort fun a b => a ≤ b
    match ipv4Flatten bl1 bt1 0 keys with
    | (bt2, offs, cnts, starts, ends) =>
      { bucketType := bt2, offsets := offs, counts := cnts, starts := starts, ends := ends }

/-- Binary search loop of containsIpv4, fuelled: each iteration halves the
search interval, so count + 1 probes always suffice and the fuel never runs
out while the interval is nonempty. -/
def containsIpv4Loop (starts : List ℕ) (off low : ℕ) : ℕ → Int → Int → Int → Int
  | 0, _, _, idx => idx
  | fuel + 1, lo, hi, idx =>
    if lo ≤ hi then
      let mid := (lo + hi) / 2
      let s := starts.getD (off + mid.toNat) 0
      if s ≤ low then containsIpv4Loop starts off low fuel (mid + 1) hi mid
      else containsIpv4Loop starts off low fuel lo (mid - 1) idx
    else idx

/-- Model of containsIpv4: bucket dispatch on the high 16 bits, then binary
search of the bucket's sorted low sub-ranges for the greatest start at most
the low 16 bits, and an end check. -/
def containsIpv4 (index : Ipv4Index) (ipInt : ℕ) : Bool :=
  let high := ipInt >>> 16
  let t := (index.bucketType.lookup high).getD 0
  if t = 1 then true
  else if t = 0 then false
  else
    let low := ipInt &&& 0xFFFF
    let off := (index.offsets.lookup high).getD 0
    let count := (index.counts.lookup high).getD 0
    let idx := containsIpv4Loop index.starts off low (count + 1) 0 ((count : Int) - 1) (-1)
    decide (idx ≥ 0) && decide (low ≤ index.ends.getD (off + idx.toNat) 0)

/-! ## The IPv6 index (buildIpv6IndexFromCidrs, containsIpv6Parts) -/

/-- Model of compareLow96: three-way lexicographic comparison of 96-bit
values split into three words. -/
def compareLow96 (aHi aMid aLo bHi bMid bLo : ℕ) : Int :=
  if aHi ≠ bHi then (if aHi < bHi then -1 else 1)
  else if aMid ≠ bMid then (if aMid < bMid then -1 else 1)
  else if aLo ≠ bLo then (if aLo < bLo then -1 else 1)
  else 0

/-- Model of lowAddOne: increment of a 96-bit three-word value with carry
and 32-bit wraparound on the top word. -/
def lowAddOne (hi mid lo : ℕ) : ℕ × ℕ × ℕ :=
  if lo ≠ 0xFFFFFFFF then (hi, mid, (lo + 1) % 4294967296)
  else if mid ≠ 0xFFFFFFFF then (hi, (mid + 1) % 4294967296, 0)
  else ((hi + 1) % 4294967296, 0, 0)

/-- One low-96-bit sub-range of a partial IPv6 bucket; the source stores the
six words as one array row in this field order. -/
structure Row96 where
  sHi : ℕ
  sMid : ℕ
  sLo : ℕ
  eHi : ℕ
  eMid : ℕ
  eLo : ℕ
deriving DecidableEq, Repr

/-- Sorting order of the per-bucket row sort: by start words only, as the
source comparator does (rows with equal starts may come out in either
order; such ties only arise from ranges the wraparound bug duplicates). -/
def RRow (a b : Row96) : Prop :=
  compareLow96 a.sHi a.sMid a.sLo b.sHi b.sMid b.sLo ≤ 0

instance : DecidableRel RRow := fun a b =>
  inferInstanceAs (Decidable (compareLow96 a.sHi a.sMid a.sLo b.sHi b.sMid b.sLo ≤ 0))

/-- Walk of a sorted per-bucket row list, fusing overlapping or adjacent
96-bit sub-ranges exactly as the source loop does. -/
def rowWalk (last : Row96) : List Row96 → List Row96
  | [] => [last]
  | cur :: rest =>
    match lowAddOne last.eHi last.eMid last.eLo with
    | (nHi, nMid, nLo) =>
      if compareLow96 cur.sHi cur.sMid cur.sLo nHi nMid nLo > 0 then
        last :: rowWalk cur rest
      else if compareLow96 cur.eHi cur.eMid cur.eLo last.eHi last.eMid last.eLo > 0 then
        rowWalk { last with eHi := cur.eHi, eMid := cur.eMid, eLo := cur.eLo } rest
      else
        rowWalk last rest

/-- Per-bucket merge of pending rows: sort by start, then walk. -/
def mergeRowList (list : List Row96) : List Row96 :=
  match list.insertionSort RRow with
  | [] => []
  | x :: xs => rowWalk x xs

/-- Bucket metadata entry before hashing: the top-32-bit key, the bucket
type (1 full, 2 partial), and the offset and count into the packed arrays. -/
structure MetaEntry where
  key : ℕ
  type : ℕ
  offset : ℕ
  count : ℕ
deriving DecidableEq, Repr

/-- Output of buildMetaTable: the parallel entry arrays, the open-addressed
slot table holding one-based entry indexes (zero meaning empty), and the
power-of-two mask. -/
structure MetaTableInfo where
  keys : List ℕ
  types : List ℕ
  offsets : List ℕ
  counts : List ℕ
  table : List ℕ
  mask : ℕ
deriving Repr

/-- Doubling loop that computes the table capacity, fuelled: starting from
1, doubling reaches any target of at least 1 within target steps. -/
def growSize (target : ℕ) : ℕ → ℕ → ℕ
  | 0, sz => sz
  | fuel + 1, sz => if sz < target then growSize target fuel (sz * 2) else sz

/-- Linear-probe insertion of one value, fuelled: probes forward with
wraparound to the first empty slot.  The builder keeps the load factor
below one, so a free slot is always reached within capacity probes. -/
def insertProbe (v mask : ℕ) : ℕ → ℕ → List ℕ → List ℕ
  | 0, _, table => table
  | fuel + 1, slot, table =>
    if table.getD slot 0 ≠ 0 then insertProbe v mask fuel ((slot + 1) &&& mask) table
    else table.set slot v

/-- Model of buildMetaTable.  Math.ceil(count * 1.3) is modelled as the
exact ceiling of 13 * count / 10; the double computation of the source
rounds the product upward by at most one unit in the last place, which
never moves the ceiling across a power of two for any count below 2^32
(the largest possible array length), so the chosen capacity agrees. -/
def buildMetaTable (entries : List MetaEntry) : MetaTableInfo :=
  let count := entries.length
  let keys := entries.map fun e => e.key % 4294967296
  let types := entries.map fun e => e.type % 256
  let offsets := entries.map fun e => e.offset % 4294967296
  let counts := entries.map fun e => e.count % 4294967296
  let target := max 4 ((13 * count + 9) / 10)
  let tableSize := growSize target target 1
  let mask := tableSize - 1
  let table := (List.range count).foldl
    (fun table i =>
      insertProbe (i + 1) mask tableSize
        (((keys.getD i 0) * 2654435761) % 4294967296 &&& mask) table)
    (List.replicate tableSize 0)
  { keys := keys, types := types, offsets := offsets, counts := counts,
    table := table, mask := mask }

/-- IPv6 index: the meta hash table fields, the six packed low-96-bit
arrays, and the sorted super ranges. -/
structure Ipv6Index where
  metaKeys : List ℕ
  metaTypes : List ℕ
  metaOffsets : List ℕ
  metaCounts : List ℕ
  metaTable : List ℕ
  metaMask : ℕ
  startsHi : List ℕ
  startsMid : List ℕ
  startsLo : List ℕ
  endsHi : List ℕ
  endsMid : List ℕ
  endsLo : List ℕ
  superRanges : List Range128
deriving Repr

/-- Probe loop of metaLookup, fuelled; none models a probe that exceeds its
fuel, which cannot happen on tables the builder produces. -/
def metaLookupGo (index : Ipv6Index) (p0 : ℕ) : ℕ → ℕ → Option Int
  | 0, _ => none
  | fuel + 1, slot =>
    let stored := index.metaTable.getD slot 0
    if stored = 0 then some (-1)
    else
      let idx := stored - 1
      if index.metaKeys.getD idx 0 = p0 then some (idx : Int)
      else metaLookupGo index p0 fuel ((slot + 1) &&& index.metaMask)

/-- Model of metaLookup: hash the top word and probe linearly until the key
or an empty slot is found; -1 reports a miss. -/
def metaLookup (fuel : ℕ) (index : Ipv6Index) (p0 : ℕ) : Option Int :=
  if index.metaTable.length = 0 then some (-1)
  else metaLookupGo index p0 fuel ((p0 * 2654435761) % 4294967296 &&& index.metaMask)

/-- Sorting order of buildSuperRanges: by start words only. -/
def RSuper (a b : Range128) : Prop := cmpW a.start b.start ≤ 0

instance : DecidableRel RSuper := fun a b =>
  inferInstanceAs (Decidable (cmpW a.start b.start ≤ 0))

/-- Model of buildSuperRanges: sort the bucket-crossing ranges by start. -/
def buildSuperRanges (superRanges : List Range128) : List Range128 :=
  if superRanges.length = 0 then [] else superRanges.insertionSort RSuper

/-- Binary search loop over the super ranges, fuelled like the other binary
searches. -/
def superLoop (ranges : List Range128) (q : Word128) : ℕ → Int → Int → Int → Int
  | 0, _, _, idx => idx
  | fuel + 1, lo, hi, idx =>
    if lo ≤ hi then
      let mid := (lo + hi) / 2
      let r := ranges.getD mid.toNat ⟨⟨0, 0, 0, 0⟩, ⟨0, 0, 0, 0⟩⟩
      if cmpW r.start q ≤ 0 then superLoop ranges q fuel (mid + 1) hi mid
      else superLoop ranges q fuel lo (mid - 1) idx
    else idx

/-- Model of containsSuperRange: greatest start at most the query, then an
end check. -/
def containsSuperRange (ranges : List Range128) (p0 p1 p2 p3 : ℕ) : Bool :=
  if ranges.length = 0 then false
  else
    let q : Word128 := ⟨p0, p1, p2, p3⟩
    let idx := superLoop ranges q (ranges.length + 1) 0 ((ranges.length : Int) - 1) (-1)
    if idx < 0 then false
    else
      let r := ranges.getD idx.toNat ⟨⟨0, 0, 0, 0⟩, ⟨0, 0, 0, 0⟩⟩
      decide (cmpW q r.stop ≤ 0)

/-- Offsets and counts of the partial buckets in iteration order, with a
running cursor, as the flatten loop of buildIpv6IndexFromCidrs records
them. -/
def bucketsMeta (cursor : ℕ) : List (ℕ × List Row96) → List MetaEntry
  | [] => []
  | (high, list) :: t => ⟨high, 2, cursor, list.length⟩ :: bucketsMeta (cursor + list.length) t

/-- Model of buildIpv6IndexFromCidrs. -/
def buildIpv6IndexFromCidrs (cidrs : List String) : Ipv6Index :=
  let ranges := cidrs.filterMap ipv6CidrToRange
  let merged := mergeRanges128 ranges
  let step : (List (ℕ × List Row96) × List ℕ × List Range128) → Range128 →
      (List (ℕ × List Row96) × List ℕ × List Range128) :=
    fun st range =>
      match st with
      | (bm, fulls, supers) =>
        if range.start.p0 ≠ range.stop.p0 then (bm, fulls, supers ++ [range])
        else
          let high := range.start.p0 % 4294967296
          if fulls.contains high then (bm, fulls, supers)
          else
            let isFull := range.start.p1 = 0 ∧ range.start.p2 = 0 ∧ range.start.p3 = 0 ∧
              range.stop.p1 = 0xFFFFFFFF ∧ range.stop.p2 = 0xFFFFFFFF ∧
              range.stop.p3 = 0xFFFFFFFF
            if isFull then (assocErase high bm, fulls ++ [high], supers)
            else
              let row : Row96 := ⟨range.start.p1, range.start.p2, range.start.p3,
                range.stop.p1, range.stop.p2, range.stop.p3⟩
              match bm.lookup high with
              | none => (bm ++ [(high, [row])], fulls, supers)
              | some list => (assocSet high (list ++ [row]) bm, fulls, supers)
  match merged.foldl step ([], [], []) with
  | (bm, fulls, supers) =>
    let bm2 := bm.map fun p => (p.1, mergeRowList p.2)
    let rows := (bm2.map Prod.snd).flatten
    let metaEntries := bucketsMeta 0 bm2 ++ fulls.map fun h => MetaEntry.mk h 1 0 0
    let info := buildMetaTable metaEntries
    { metaKeys := info.keys, metaTypes := info.types, metaOffsets := info.offsets,
      metaCounts := info.counts, metaTable := info.table, metaMask := info.mask,
      startsHi := rows.map Row96.sHi, startsMid := rows.map Row96.sMid,
      startsLo := rows.map Row96.sLo, endsHi := rows.map Row96.eHi,
      endsMid := rows.map Row96.eMid, endsLo := rows.map Row96.eLo,
      superRanges := buildSuperRanges supers }

/-- Binary search loop over a partial bucket's 96-bit sub-range starts. -/
def low96Loop (index : Ipv6Index) (off p1 p2 p3 : ℕ) : ℕ → Int → Int → Int → Int
  | 0, _, _, idx => idx
  | fuel + 1, lo, hi, idx =>
    if lo ≤ hi then
      let mid := (lo + hi) / 2
      let sHi := index.startsHi.getD (off + mid.toNat) 0
      let sMid := index.startsMid.getD (off + mid.toNat) 0
      let sLo := index.startsLo.getD (off + mid.toNat) 0
      if compareLow96 sHi sMid sLo p1 p2 p3 ≤ 0 then
        low96Loop index off p1 p2 p3 fuel (mid + 1) hi mid
      else low96Loop index off p1 p2 p3 fuel lo (mid - 1) idx
    else idx

/-- Model of containsIpv6Parts: coerce the four words, check the super
ranges, then the meta table, then binary search the partial bucket. -/
def containsIpv6Parts (index : Ipv6Index) (a0 a1 a2 a3 : ℕ) : Bool :=
  let p0 := a0 % 4294967296
  let p1 := a1 % 4294967296
  let p2 := a2 % 4294967296
  let p3 := a3 % 4294967296
  if containsSuperRange index.superRanges p0 p1 p2 p3 then true
  else
    match metaLookup index.metaTable.length index p0 with
    | none => false
    | some mi =>
      if mi < 0 then false
      else if index.metaTypes.getD mi.toNat 0 = 1 then true
      else
        let off := index.metaOffsets.getD mi.toNat 0
        let count := index.metaCounts.getD mi.toNat 0
        let idx := low96Loop index off p1 p2 p3 (count + 1) 0 ((count : Int) - 1) (-1)
        if idx < 0 then false
        else
          decide (compareLow96 p1 p2 p3 (index.endsHi.getD (off + idx.toNat) 0)
            (index.endsMid.getD (off + idx.toNat) 0)
            (index.endsLo.getD (off + idx.toNat) 0) ≤ 0)

/-! ## The query dispatcher (isVpn)

The source closes over the two module-global active indexes; the model
passes the active pair explicitly. -/

/-- Model of isVpnV4 against a given IPv4 index. -/
def isVpnV4 (idx4 : Ipv4Index) (ip : String) : Bool :=
  match ipv4ToInt ip with
  | none => false
  | some n => containsIpv4 idx4 n

/-- Model of isVpnV6 against a given IPv6 index. -/
def isVpnV6 (idx6 : Ipv6Index) (ip : String) : Bool :=
  match ipv6ToPartsCore ip.toList with
  | none => false
  | some w => containsIpv6Parts idx6 w.p0 w.p1 w.p2 w.p3

/-- Dispatch scan of isVpn: the first colon routes to the IPv6 path, the
first dot to the IPv4 path, a slash or percent stops the scan, and a string
with no decisive character is not a VPN address. -/
def isVpnScan (idx4 : Ipv4Index) (idx6 : Ipv6Index) (ip : String) : List Char → Bool
  | [] => false
  | c :: cs =>
    if c.toNat = 58 then isVpnV6 idx6 ip
    else if c.toNat = 46 then isVpnV4 idx4 ip
    else if c.toNat = 47 ∨ c.toNat = 37 then false
    else isVpnScan idx4 idx6 ip cs

/-- Model of isVpn against a given active index pair. -/
def isVpn (idx4 : Ipv4Index) (idx6 : Ipv6Index) (ip : String) : Bool :=
  isVpnScan idx4 idx6 ip ip.toList

/-! ## Meta-table auxiliary notions

ipv6IndexOfMeta re-packages the output of buildMetaTable as the meta fields
of an Ipv6Index so that metaLookup, which reads only those fields, can be
run on it directly.  metaHome is the starting slot of the linear-probe
sequence, and ProbePath and MetaInv state the invariant that the insertion
loop of buildMetaTable maintains. -/

/-- Ipv6Index carrying only the meta hash table of a MetaTableInfo, with
empty packed arrays; metaLookup reads only the meta fields. -/
def ipv6IndexOfMeta (m : MetaTableInfo) : Ipv6Index :=
  { metaKeys := m.keys, metaTypes := m.types, metaOffsets := m.offsets,
    metaCounts := m.counts, metaTable := m.table, metaMask := m.mask,
    startsHi := [], startsMid := [], startsLo := [], endsHi := [], endsMid := [],
    endsLo := [], superRanges := [] }

/-- The slot of the open-addressed table at which linear probing for the
hash of key k starts, with capacity N. -/
def metaHome (k N : ℕ) : ℕ := (k * 2654435761) % 4294967296 % N

/-- Linear-probe path of entry j: some probe distance d reaches the slot
storing j + 1 and every earlier probe meets an occupied slot. -/
def ProbePath (table : List ℕ) (N start j : ℕ) : Prop :=
  ∃ d < N, table.getD ((start + d) % N) 0 = j + 1 ∧
    ∀ e < d, table.getD ((start + e) % N) 0 ≠ 0

/-- Invariant of the meta table after the first m entries are inserted:
full length, at least N - m empty slots, stored values at most m, and a
probe path for every inserted entry. -/
def MetaInv (keys : List ℕ) (m N : ℕ) (table : List ℕ) : Prop :=
  table.length = N ∧
  N ≤ table.count 0 + m ∧
  (∀ s, table.getD s 0 ≤ m) ∧
  ∀ j < m, ProbePath table N (metaHome (keys.getD j 0) N) j

/-! ## The mod.js implementation and the two refresh lifecycles

mod.js serves queries from a single mutable interval-tree binding.  Its
updateList assigns a fresh empty tree to that binding and then awaits the
batched insertion, so the states the event loop can observe during a
refresh are: the old tree (during the fetch), the empty tree (entering the
first batch await), each partial tree after a batch, and the final tree.
part_001's updateList instead builds both replacement indexes after both
fetches resolve and assigns them in one synchronous run, so the observable
states are the old pair during either fetch and the fully built new pair
afterwards; a failed fetch propagates its exception before any assignment.
The traces below list the observable states of one refresh in order.

Number quirks outside every input exercised here are mapped to none rather
than reproduced bit for bit: a NaN produced by parseInt on a malformed
octet (the source would coerce it to zero in a later shift), and mask
fields outside 1..31 (the source's signed shift overflows there).  A range
with such a coordinate is not inserted; on NaN-free trees and finite query
points this is observationally equal to the source, whose NaN comparisons
all yield false. -/

namespace ModJs

/-- Interval payload of a tree node, mod.js {start, end}. -/
structure Interval where
  start : Int
  stop : Int
deriving DecidableEq, Repr

/-- IntervalTree of mod.js: node payload, subtree max, left, right. -/
inductive ITree where
  | leaf : ITree
  | node : Interval → Int → ITree → ITree → ITree
deriving DecidableEq, Repr

/-- IntervalTree.insert: walk down comparing starts, raising every visited
node's max to the new end, and attach a fresh node at the first free slot. -/
def insertNode : ITree → Interval → ITree
  | .leaf, iv => .node iv iv.stop .leaf .leaf
  | .node nd mx l r, iv =>
    if iv.start < nd.start then .node nd (max mx iv.stop) (insertNode l iv) r
    else .node nd (max mx iv.stop) l (insertNode r iv)

/-- IntervalTree.query: report containment at the current node, else descend
left when the left child exists and its max admits the point, else right. -/
def queryTree : ITree → Int → Bool
  | .leaf, _ => false
  | .node nd _ l r, p =>
    if p ≥ nd.start ∧ p ≤ nd.stop then true
    else
      match l with
      | .node _ lmax _ _ => if p ≤ lmax then queryTree l p else queryTree r p
      | .leaf => queryTree r p

/-- Signed 32-bit coercion. -/
def toInt32 (x : Int) : Int := (x + 2147483648) % 4294967296 - 2147483648

/-- parseInt(octet, 10) on the plain digit octets exercised here: the
leading digit run; none models NaN. -/
def parseIntDec (s : List Char) : Option Int :=
  let ds := s.takeWhile Char.isDigit
  if ds = [] then none else some ((digitsToNat ds : ℕ) : Int)

/-- ipToBinary of mod.js: fold (acc << 8) + parseInt(octet) over the dot
field list, the shift in signed 32-bit arithmetic; none models a NaN
accumulator. -/
def ipToBinary (octets : List (List Char)) : Option Int :=
  octets.foldl
    (fun acc oct =>
      match acc, parseIntDec oct with
      | some a, some v => some (toInt32 (toInt32 a * 256) + v)
      | _, _ => none)
    (some 0)

/-- ipv4CidrToRange of mod.js: start is the parsed base address and end is
start | ((1 << (32 - mask)) - 1) with the mask string coerced by Number;
masks outside 1..31 and negative or NaN values fall outside the modelled
range (see the section comment) and give none. -/
def ipv4CidrToRange (cidr : String) : Option Interval :=
  let parts := splitOnChar '/' cidr.toList
  match ipToBinary (splitOnChar '.' (parts.headD [])), parts[1]? with
  | some ipB, some maskStr =>
    match jsNumberOfChars maskStr with
    | some j =>
      if j.num % j.den = 0 ∧ j.neg = false ∧ 1 ≤ j.num / j.den ∧ j.num / j.den ≤ 31 ∧
          0 ≤ ipB then
        some ⟨ipB, ((ipB.toNat ||| (2 ^ (32 - j.num / j.den) - 1) : ℕ) : Int)⟩
      else none
    | none => none
  | _, _ => none

/-- One line of the batch loop body: parse and insert; a range with an
unmodelled NaN coordinate is not stored (see the section comment). -/
def insertCidr (t : ITree) (cidr : String) : ITree :=
  match ipv4CidrToRange cidr with
  | some iv => insertNode t iv
  | none => t

/-- Tree states after each 500-line batch of batchInsertRanges, fuelled by
the line count (each batch consumes at least one line, so the fuel never
runs out). -/
def batchTrace (fuel : ℕ) (t : ITree) (rest : List String) : List ITree :=
  match fuel, rest with
  | _, [] => []
  | 0, _ => []
  | f + 1, rest =>
    let t2 := (rest.take 500).foldl insertCidr t
    t2 :: batchTrace f t2 (rest.drop 500)

/-- Observable itree states of one mod.js updateList run: the old tree
during the fetch; on fetch failure nothing else (the catch keeps the
binding); on success the empty tree published before the first batch await,
then the state after each batch. -/
def refreshStates (t0 : ITree) (fetched : Option (List String)) : List ITree :=
  match fetched with
  | none => [t0]
  | some lines => t0 :: ITree.leaf :: batchTrace lines.length ITree.leaf lines

/-- isVpn of mod.js: query the active tree at the parsed address; a NaN
point makes every comparison of the query loop false, hence false. -/
def isVpn (t : ITree) (ip : String) : Bool :=
  match ipToBinary (splitOnChar '.' ip.toList) with
  | some p => queryTree t p
  | none => false

end ModJs

/-- Observable index-pair states of one part_001 updateList run: the old
pair during the first fetch, the old pair during the second fetch, and,
only when both fetches succeed, the pair of fully built indexes assigned in
one synchronous run; a fetch failure raises out of updateList before any
assignment. -/
def updateListStates (st : Ipv4Index × Ipv6Index)
    (f4 f6 : Option (List String)) : List (Ipv4Index × Ipv6Index) :=
  match f4 with
  | none => [st]
  | some l4 =>
    match f6 with
    | none => [st, st]
    | some l6 => [st, st, (buildIpv4IndexFromCidrs l4, buildIpv6IndexFromCidrs l6)]

/-! ## Theory of the 32-bit merger -/

theorem R32_iff (a b : Range32) :
    R32 a b ↔ a.start < b.start ∨ (a.start = b.start ∧ a.stop ≤ b.stop) := by
  simp [R32, le32]

theorem covered_perm {l l' : List Range32} (h : l.Perm l') (a : ℕ) :
    covered l a ↔ covered l' a := by
  unfold covered
  constructor
  · rintro ⟨r, hr, h1, h2⟩; exact ⟨r, h.mem_iff.mp hr, h1, h2⟩
  · rintro ⟨r, hr, h1, h2⟩; exact ⟨r, h.mem_iff.mpr hr, h1, h2⟩

theorem mergeWalk32_head (l : List Range32) (last : Range32) :
    ∃ e t, mergeWalk32 last l = Range32.mk last.start e :: t ∧ last.stop ≤ e := by
  induction l generalizing last with
  | nil => exact ⟨last.stop, [], rfl, le_refl _⟩
  | cons cur rest ih =>
    by_cases h1 : last.stop + 1 < cur.start
    · exact ⟨last.stop, mergeWalk32 cur rest, by simp [mergeWalk32, h1], le_refl _⟩
    · by_cases h2 : last.stop < cur.stop
      · obtain ⟨e, t, heq, hle⟩ := ih ⟨last.start, cur.stop⟩
        exact ⟨e, t, by simpa [mergeWalk32, h1, h2] using heq, le_trans (le_of_lt h2) hle⟩
      · obtain ⟨e, t, heq, hle⟩ := ih last
        exact ⟨e, t, by simpa [mergeWalk32, h1, h2] using heq, hle⟩

theorem mergeWalk32_sorted_aux (l : List Range32) (last : Range32)
    (hs : (last :: l).Sorted R32) :
    Gapped (mergeWalk32 last l) := by
  induction l generalizing last with
  | nil => simp [mergeWalk32, Gapped]
  | cons cur rest ih =>
    rw [List.sorted_cons] at hs
    obtain ⟨hlast, hrest⟩ := hs
    by_cases h1 : last.stop + 1 < cur.start
    · obtain ⟨e, t, heq, _⟩ := mergeWalk32_head rest cur
      have hchain := ih cur hrest
      simp only [mergeWalk32, if_pos h1]
      rw [heq] at hchain ⊢
      exact List.Chain'.cons (by simpa using h1) hchain
    · rw [List.sorted_cons] at hrest
      obtain ⟨hcur, hrest'⟩ := hrest
      by_cases h2 : last.stop < cur.stop
      · simp only [mergeWalk32, if_neg h1, if_pos h2]
        apply ih
        rw [List.sorted_cons]
        refine ⟨fun b hb => ?_, hrest'⟩
        have hlb := hcur b hb
        have hlb' := hlast b (List.mem_cons_of_mem _ hb)
        have h3 := hlast cur (List.mem_cons_self _ _)
        rw [R32_iff] at hlb hlb' h3 ⊢
        simp only at *
        omega
      · simp only [mergeWalk32, if_neg h1, if_neg h2]
        apply ih
        rw [List.sorted_cons]
        exact ⟨fun b hb => hlast b (List.mem_cons_of_mem _ hb), hrest'⟩

theorem mergeWalk32_wf (l : List Range32) (last : Range32)
    (hwl : last.start ≤ last.stop) (hw : ∀ r ∈ l, r.start ≤ r.stop) :
    ∀ r ∈ mergeWalk32 last l, r.start ≤ r.stop := by
  induction l generalizing last with
  | nil =>
    intro r hr
    simp [mergeWalk32] at hr
    subst hr; exact hwl
  | cons cur rest ih =>
    have hwcur : cur.start ≤ cur.stop := hw cur (List.mem_cons_self _ _)
    have hwrest : ∀ r ∈ rest, r.start ≤ r.stop := fun r hr => hw r (List.mem_cons_of_mem _ hr)
    by_cases h1 : last.stop + 1 < cur.start
    · intro r hr
      simp only [mergeWalk32, if_pos h1] at hr
      rcases List.mem_cons.mp hr with h | h
      · subst h; exact hwl
      · exact ih cur hwcur hwrest r h
    · by_cases h2 : last.stop < cur.stop
      · intro r hr
        simp only [mergeWalk32, if_neg h1, if_pos h2] at hr
        exact ih ⟨last.start, cur.stop⟩ (le_trans hwl (le_of_lt h2)) hwrest r hr
      · intro r hr
        simp only [mergeWalk32, if_neg h1, if_neg h2] at hr
        exact ih last hwl hwrest r hr

theorem mergeWalk32_covered (l : List Range32) (last : Range32)
    (hs : (last :: l).Sorted R32) (a : ℕ) :
    covered (mergeWalk32 last l) a ↔ covered (last :: l) a := by
  induction l generalizing last with
  | nil => simp [mergeWalk32]
  | cons cur rest ih =>
    rw [List.sorted_cons] at hs
    obtain ⟨hlast, hrest⟩ := hs
    have h3 : R32 last cur := hlast cur (List.mem_cons_self _ _)
    rw [R32_iff] at h3
    by_cases h1 : last.stop + 1 < cur.start
    · simp only [mergeWalk32, if_pos h1]
      have := ih cur hrest
      unfold covered at *
      constructor
      · rintro ⟨r, hr, ha1, ha2⟩
        rcases List.mem_cons.mp hr with h | h
        · exact ⟨r, by simp [h], ha1, ha2⟩
        · obtain ⟨r', hr', hb1, hb2⟩ := this.mp ⟨r, h, ha1, ha2⟩
          exact ⟨r', List.mem_cons_of_mem _ hr', hb1, hb2⟩
      · rintro ⟨r, hr, ha1, ha2⟩
        rcases List.mem_cons.mp hr with h | h
        · exact ⟨r, by simp [h], ha1, ha2⟩
        · obtain ⟨r', hr', hb1, hb2⟩ := this.mpr ⟨r, h, ha1, ha2⟩
          exact ⟨r', List.mem_cons_of_mem _ hr', hb1, hb2⟩
    · rw [List.sorted_cons] at hrest
      obtain ⟨hcur, hrest'⟩ := hrest
      by_cases h2 : last.stop < cur.stop
      · simp only [mergeWalk32, if_neg h1, if_pos h2]
        have hs' : (Range32.mk last.start cur.stop :: rest).Sorted R32 := by
          rw [List.sorted_cons]
          refine ⟨fun b hb => ?_, hrest'⟩
          have hlb := hcur b hb
          have hlb' := hlast b (List.mem_cons_of_mem _ hb)
          rw [R32_iff] at hlb hlb' ⊢
          simp only at *
          omega
        rw [ih _ hs']
        unfold covered
        constructor
        · rintro ⟨r, hr, ha1, ha2⟩
          rcases List.mem_cons.mp hr with h | h
          · subst h
            simp only at ha1 ha2
            by_cases hc : a ≤ last.stop
            · exact ⟨last, List.mem_cons_self _ _, ha1, hc⟩
            · exact ⟨cur, by simp, by omega, ha2⟩
          · exact ⟨r, by simp [h], ha1, ha2⟩
        · rintro ⟨r, hr, ha1, ha2⟩
          rcases List.mem_cons.mp hr with h | h
          · rw [h] at ha1 ha2
            refine ⟨⟨last.start, cur.stop⟩, List.mem_cons_self _ _, ha1, ?_⟩
            show a ≤ cur.stop
            omega
          · rcases List.mem_cons.mp h with h' | h'
            · rw [h'] at ha1 ha2
              refine ⟨⟨last.start, cur.stop⟩, List.mem_cons_self _ _, ?_, ha2⟩
              show last.start ≤ a
              omega
            · exact ⟨r, List.mem_cons_of_mem _ h', ha1, ha2⟩
      · simp only [mergeWalk32, if_neg h1, if_neg h2]
        have hs' : (last :: rest).Sorted R32 := by
          rw [List.sorted_cons]
          exact ⟨fun b hb => hlast b (List.mem_cons_of_mem _ hb), hrest'⟩
        rw [ih _ hs']
        unfold covered
        constructor
        · rintro ⟨r, hr, ha1, ha2⟩
          rcases List.mem_cons.mp hr with h | h
          · exact ⟨r, by simp [h], ha1, ha2⟩
          · exact ⟨r, by simp [h], ha1, ha2⟩
        · rintro ⟨r, hr, ha1, ha2⟩
          rcases List.mem_cons.mp hr with h | h
          · exact ⟨r, by simp [h], ha1, ha2⟩
          · rcases List.mem_cons.mp h with h' | h'
            · subst h'
              exact ⟨last, List.mem_cons_self _ _, by omega, by omega⟩
            · exact ⟨r, List.mem_cons_of_mem _ h', ha1, ha2⟩

theorem gapped_pairwise_aux (l : List Range32) (a : Range32)
    (hw : ∀ r ∈ l, r.start ≤ r.stop) (hc : Gapped (a :: l)) :
    ∀ r ∈ l, a.stop + 1 < r.start := by
  induction l generalizing a with
  | nil => intro r hr; cases hr
  | cons b t ih =>
    unfold Gapped at hc
    rw [List.chain'_cons] at hc
    obtain ⟨hab, hbt⟩ := hc
    intro r hr
    rcases List.mem_cons.mp hr with h | h
    · rw [h]; exact hab
    · have hwb : b.start ≤ b.stop := hw b (List.mem_cons_self _ _)
      have := ih b (fun r hr => hw r (List.mem_cons_of_mem _ hr)) hbt r h
      omega

theorem gapped_pairwise (l : List Range32)
    (hw : ∀ r ∈ l, r.start ≤ r.stop) (hc : Gapped l) :
    l.Pairwise fun a b => a.stop + 1 < b.start := by
  induction l with
  | nil => exact List.Pairwise.nil
  | cons a t ih =>
    refine List.Pairwise.cons ?_ ?_
    · exact gapped_pairwise_aux t a (fun r hr => hw r (List.mem_cons_of_mem _ hr)) hc
    · exact ih (fun r hr => hw r (List.mem_cons_of_mem _ hr)) (List.Chain'.tail hc)

theorem normal_sorted (l : List Range32)
    (hw : ∀ r ∈ l, r.start ≤ r.stop) (hc : Gapped l) : l.Sorted R32 := by
  have hp := gapped_pairwise l hw hc
  refine hp.imp_of_mem ?_
  intro a b ha _ hab
  rw [R32_iff]
  have := hw a ha
  omega

theorem mergeWalk32_id (l : List Range32) (x : Range32) (hc : Gapped (x :: l)) :
    mergeWalk32 x l = x :: l := by
  induction l generalizing x with
  | nil => rfl
  | cons cur rest ih =>
    unfold Gapped at hc
    rw [List.chain'_cons] at hc
    obtain ⟨h1, h2⟩ := hc
    simp only [mergeWalk32, if_pos h1]
    rw [ih cur h2]

theorem merge32_gapped (rs : List Range32) : Gapped (mergeRanges32 rs) := by
  unfold mergeRanges32
  have hs : (rs.insertionSort R32).Sorted R32 := List.sorted_insertionSort R32 rs
  match h : rs.insertionSort R32 with
  | [] => simp [Gapped]
  | r :: rest =>
    rw [h] at hs
    exact mergeWalk32_sorted_aux rest r hs

theorem merge32_wf (rs : List Range32) (hw : ∀ r ∈ rs, r.start ≤ r.stop) :
    ∀ r ∈ mergeRanges32 rs, r.start ≤ r.stop := by
  unfold mergeRanges32
  have hperm : (rs.insertionSort R32).Perm rs := List.perm_insertionSort R32 rs
  match h : rs.insertionSort R32 with
  | [] => intro r hr; cases hr
  | r :: rest =>
    rw [h] at hperm
    have hw' : ∀ x ∈ r :: rest, x.start ≤ x.stop := fun x hx => hw x (hperm.mem_iff.mp hx)
    exact mergeWalk32_wf rest r (hw' r (List.mem_cons_self _ _))
      (fun x hx => hw' x (List.mem_cons_of_mem _ hx))

theorem merge32_covered (rs : List Range32) (a : ℕ) :
    covered (mergeRanges32 rs) a ↔ covered rs a := by
  unfold mergeRanges32
  have hperm : (rs.insertionSort R32).Perm rs := List.perm_insertionSort R32 rs
  have hs : (rs.insertionSort R32).Sorted R32 := List.sorted_insertionSort R32 rs
  match h : rs.insertionSort R32 with
  | [] =>
    rw [h] at hperm
    rw [← covered_perm hperm a]
  | r :: rest =>
    rw [h] at hperm hs
    rw [mergeWalk32_covered rest r hs a, covered_perm hperm a]

theorem merge32_idem (rs : List Range32) (hw : ∀ r ∈ rs, r.start ≤ r.stop) :
    mergeRanges32 (mergeRanges32 rs) = mergeRanges32 rs := by
  have hgap := merge32_gapped rs
  have hwf := merge32_wf rs hw
  have hsorted := normal_sorted _ hwf hgap
  have key : (mergeRanges32 rs).insertionSort R32 = mergeRanges32 rs :=
    hsorted.insertionSort_eq
  nth_rewrite 1 [mergeRanges32]
  rw [key]
  cases h : mergeRanges32 rs with
  | nil => rfl
  | cons r rest =>
    rw [h] at hgap
    exact mergeWalk32_id rest r hgap

theorem normal_unique (l1 : List Range32) :
    ∀ l2 : List Range32,
    (∀ r ∈ l1, r.start ≤ r.stop) → Gapped l1 →
    (∀ r ∈ l2, r.start ≤ r.stop) → Gapped l2 →
    (∀ a, covered l1 a ↔ covered l2 a) → l1 = l2 := by
  induction l1 with
  | nil =>
    intro l2 _ _ hw2 _ hcov
    match l2 with
    | [] => rfl
    | r :: t =>
      exfalso
      have h : covered (r :: t) r.start :=
        ⟨r, List.mem_cons_self _ _, le_refl _, hw2 r (List.mem_cons_self _ _)⟩
      obtain ⟨x, hx, _, _⟩ := (hcov r.start).mpr h
      cases hx
  | cons r1 t1 ih =>
    intro l2 hw1 hg1 hw2 hg2 hcov
    match l2 with
    | [] =>
      exfalso
      have h : covered (r1 :: t1) r1.start :=
        ⟨r1, List.mem_cons_self _ _, le_refl _, hw1 r1 (List.mem_cons_self _ _)⟩
      obtain ⟨x, hx, _, _⟩ := (hcov r1.start).mp h
      cases hx
    | r2 :: t2 =>
      have hp1 := gapped_pairwise _ hw1 hg1
      have hp2 := gapped_pairwise _ hw2 hg2
      rw [List.pairwise_cons] at hp1 hp2
      -- every covered point of a normal cons list is at least the head start
      have hmin1 : ∀ a, covered (r1 :: t1) a → r1.start ≤ a := by
        rintro a ⟨x, hx, h1, h2⟩
        rcases List.mem_cons.mp hx with h | h
        · rw [h] at h1; exact h1
        · have := hp1.1 x h
          have := hw1 r1 (List.mem_cons_self _ _)
          omega
      have hmin2 : ∀ a, covered (r2 :: t2) a → r2.start ≤ a := by
        rintro a ⟨x, hx, h1, h2⟩
        rcases List.mem_cons.mp hx with h | h
        · rw [h] at h1; exact h1
        · have := hp2.1 x h
          have := hw2 r2 (List.mem_cons_self _ _)
          omega
      -- the successor of the head stop is never covered
      have hnc1 : ¬ covered (r1 :: t1) (r1.stop + 1) := by
        rintro ⟨x, hx, h1, h2⟩
        rcases List.mem_cons.mp hx with h | h
        · rw [h] at h2; omega
        · have := hp1.1 x h; omega
      have hnc2 : ¬ covered (r2 :: t2) (r2.stop + 1) := by
        rintro ⟨x, hx, h1, h2⟩
        rcases List.mem_cons.mp hx with h | h
        · rw [h] at h2; omega
        · have := hp2.1 x h; omega
      have hwr1 := hw1 r1 (List.mem_cons_self _ _)
      have hwr2 := hw2 r2 (List.mem_cons_self _ _)
      have hstart : r1.start = r2.start := by
        have ha := hmin2 r1.start ((hcov r1.start).mp
          ⟨r1, List.mem_cons_self _ _, le_refl _, hwr1⟩)
        have hb := hmin1 r2.start ((hcov r2.start).mpr
          ⟨r2, List.mem_cons_self _ _, le_refl _, hwr2⟩)
        omega
      have hstop : r1.stop = r2.stop := by
        by_contra hne
        rcases Nat.lt_or_ge r1.stop r2.stop with h | h
        · exact hnc1 ((hcov (r1.stop + 1)).mpr
            ⟨r2, List.mem_cons_self _ _, by omega, by omega⟩)
        · have hlt : r2.stop < r1.stop := by omega
          exact hnc2 ((hcov (r2.stop + 1)).mp
            ⟨r1, List.mem_cons_self _ _, by omega, by omega⟩)
      have hr12 : r1 = r2 := by
        cases r1; cases r2
        simp only at hstart hstop
        rw [hstart, hstop]
      have hcovt : ∀ a, covered t1 a ↔ covered t2 a := by
        intro a
        constructor
        · rintro ⟨x, hx, h1, h2⟩
          have hgt : r1.stop + 1 < a := by
            have := hp1.1 x hx; omega
          have : covered (r2 :: t2) a := (hcov a).mp ⟨x, List.mem_cons_of_mem _ hx, h1, h2⟩
          obtain ⟨y, hy, h3, h4⟩ := this
          rcases List.mem_cons.mp hy with h | h
          · rw [h] at h4; rw [← hstop] at h4; omega
          · exact ⟨y, h, h3, h4⟩
        · rintro ⟨x, hx, h1, h2⟩
          have hgt : r2.stop + 1 < a := by
            have := hp2.1 x hx; omega
          have : covered (r1 :: t1) a := (hcov a).mpr ⟨x, List.mem_cons_of_mem _ hx, h1, h2⟩
          obtain ⟨y, hy, h3, h4⟩ := this
          rcases List.mem_cons.mp hy with h | h
          · rw [h] at h4; rw [hstop] at h4; omega
          · exact ⟨y, h, h3, h4⟩
      have ht := ih t2 (fun r hr => hw1 r (List.mem_cons_of_mem _ hr)) (List.Chain'.tail hg1)
        (fun r hr => hw2 r (List.mem_cons_of_mem _ hr)) (List.Chain'.tail hg2) hcovt
      rw [hr12, ht]

theorem merge32_absorb (rs S : List Range32)
    (hw : ∀ r ∈ rs, r.start ≤ r.stop)
    (hS : ∀ s ∈ S, s ∈ mergeRanges32 rs) :
    mergeRanges32 (rs ++ S) = mergeRanges32 rs := by
  have hwS : ∀ s ∈ S, s.start ≤ s.stop := fun s hs => merge32_wf rs hw s (hS s hs)
  have hwall : ∀ r ∈ rs ++ S, r.start ≤ r.stop := by
    intro r hr
    rcases List.mem_append.mp hr with h | h
    · exact hw r h
    · exact hwS r h
  refine normal_unique _ _ (merge32_wf _ hwall) (merge32_gapped _)
    (merge32_wf _ hw) (merge32_gapped _) ?_
  intro a
  rw [merge32_covered, merge32_covered]
  unfold covered
  constructor
  · rintro ⟨r, hr, h1, h2⟩
    rcases List.mem_append.mp hr with h | h
    · exact ⟨r, h, h1, h2⟩
    · exact (merge32_covered rs a).mp ⟨r, hS r h, h1, h2⟩
  · rintro ⟨r, hr, h1, h2⟩
    exact ⟨r, List.mem_append_left _ hr, h1, h2⟩

/-! ## Theory of the 128-bit comparison and successor -/

theorem compare128_lt_iff (a0 a1 a2 a3 b0 b1 b2 b3 : ℕ) :
    compare128 a0 a1 a2 a3 b0 b1 b2 b3 < 0 ↔
      (a0 < b0 ∨ (a0 = b0 ∧ (a1 < b1 ∨ (a1 = b1 ∧ (a2 < b2 ∨ (a2 = b2 ∧ a3 < b3)))))) := by
  simp only [compare128, ne_eq]
  split_ifs <;> simp_all

theorem compare128_zero_iff (a0 a1 a2 a3 b0 b1 b2 b3 : ℕ) :
    compare128 a0 a1 a2 a3 b0 b1 b2 b3 = 0 ↔
      (a0 = b0 ∧ a1 = b1 ∧ a2 = b2 ∧ a3 = b3) := by
  simp only [compare128, ne_eq]
  split_ifs <;> simp_all

theorem compare128_vals (a0 a1 a2 a3 b0 b1 b2 b3 : ℕ) :
    compare128 a0 a1 a2 a3 b0 b1 b2 b3 = -1 ∨ compare128 a0 a1 a2 a3 b0 b1 b2 b3 = 0 ∨
      compare128 a0 a1 a2 a3 b0 b1 b2 b3 = 1 := by
  simp only [compare128, ne_eq]
  split_ifs <;> simp_all

theorem cmpW_eq_zero_iff (a b : Word128) : cmpW a b = 0 ↔ a = b := by
  obtain ⟨a0, a1, a2, a3⟩ := a
  obtain ⟨b0, b1, b2, b3⟩ := b
  simp only [cmpW, Word128.mk.injEq]
  exact compare128_zero_iff a0 a1 a2 a3 b0 b1 b2 b3

theorem cmpW_self (a : Word128) : cmpW a a = 0 := (cmpW_eq_zero_iff a a).mpr rfl

theorem cmpW_swap (a b : Word128) : cmpW b a = -cmpW a b := by
  obtain ⟨a0, a1, a2, a3⟩ := a
  obtain ⟨b0, b1, b2, b3⟩ := b
  simp only [cmpW]
  have l1 := compare128_lt_iff a0 a1 a2 a3 b0 b1 b2 b3
  have l2 := compare128_lt_iff b0 b1 b2 b3 a0 a1 a2 a3
  have v1 := compare128_vals a0 a1 a2 a3 b0 b1 b2 b3
  have v2 := compare128_vals b0 b1 b2 b3 a0 a1 a2 a3
  have z1 := compare128_zero_iff a0 a1 a2 a3 b0 b1 b2 b3
  have z2 := compare128_zero_iff b0 b1 b2 b3 a0 a1 a2 a3
  omega

theorem cmpW_lt_trans {a b c : Word128} (h1 : cmpW a b < 0) (h2 : cmpW b c < 0) :
    cmpW a c < 0 := by
  obtain ⟨a0, a1, a2, a3⟩ := a
  obtain ⟨b0, b1, b2, b3⟩ := b
  obtain ⟨c0, c1, c2, c3⟩ := c
  simp only [cmpW] at h1 h2 ⊢
  have l1 := compare128_lt_iff a0 a1 a2 a3 b0 b1 b2 b3
  have l2 := compare128_lt_iff b0 b1 b2 b3 c0 c1 c2 c3
  have l3 := compare128_lt_iff a0 a1 a2 a3 c0 c1 c2 c3
  omega

theorem cmpW_le_trans {a b c : Word128} (h1 : cmpW a b ≤ 0) (h2 : cmpW b c ≤ 0) :
    cmpW a c ≤ 0 := by
  by_cases hz : cmpW a b = 0
  · rw [cmpW_eq_zero_iff] at hz
    rw [hz]
    exact h2
  · have hl : cmpW a b < 0 := lt_of_le_of_ne h1 hz
    by_cases hz2 : cmpW b c = 0
    · rw [cmpW_eq_zero_iff] at hz2
      rw [← hz2]
      exact le_of_lt hl
    · exact le_of_lt (cmpW_lt_trans hl (lt_of_le_of_ne h2 hz2))

theorem cmpW_lt_iff_val {a b : Word128} (ha : wfW a) (hb : wfW b) :
    cmpW a b < 0 ↔ val128 a < val128 b := by
  obtain ⟨ha0, ha1, ha2, ha3⟩ := ha
  obtain ⟨hb0, hb1, hb2, hb3⟩ := hb
  obtain ⟨a0, a1, a2, a3⟩ := a
  obtain ⟨b0, b1, b2, b3⟩ := b
  simp only [val128] at *
  simp only [cmpW]
  have l1 := compare128_lt_iff a0 a1 a2 a3 b0 b1 b2 b3
  omega

theorem cmpW_le_iff_val {a b : Word128} (ha : wfW a) (hb : wfW b) :
    cmpW a b ≤ 0 ↔ val128 a ≤ val128 b := by
  obtain ⟨ha0, ha1, ha2, ha3⟩ := ha
  obtain ⟨hb0, hb1, hb2, hb3⟩ := hb
  obtain ⟨a0, a1, a2, a3⟩ := a
  obtain ⟨b0, b1, b2, b3⟩ := b
  simp only [val128] at *
  simp only [cmpW]
  have l1 := compare128_lt_iff a0 a1 a2 a3 b0 b1 b2 b3
  have l2 := compare128_lt_iff b0 b1 b2 b3 a0 a1 a2 a3
  have z1 := compare128_zero_iff a0 a1 a2 a3 b0 b1 b2 b3
  have v1 := compare128_vals a0 a1 a2 a3 b0 b1 b2 b3
  omega

theorem cmpW_pos_iff_val {a b : Word128} (ha : wfW a) (hb : wfW b) :
    0 < cmpW a b ↔ val128 b < val128 a := by
  have h1 := cmpW_le_iff_val ha hb
  omega

theorem val128_inj {a b : Word128} (ha : wfW a) (hb : wfW b)
    (h : val128 a = val128 b) : a = b := by
  obtain ⟨ha0, ha1, ha2, ha3⟩ := ha
  obtain ⟨hb0, hb1, hb2, hb3⟩ := hb
  obtain ⟨a0, a1, a2, a3⟩ := a
  obtain ⟨b0, b1, b2, b3⟩ := b
  simp only [val128] at *
  simp only [Word128.mk.injEq]
  omega

theorem val128_lt_max (hw : wfW w) :
    val128 w < 340282366920938463463374607431768211456 := by
  obtain ⟨h0, h1, h2, h3⟩ := hw
  obtain ⟨w0, w1, w2, w3⟩ := w
  simp only [val128] at *
  omega

theorem succ128_val {w : Word128} (hw : wfW w)
    (hne : val128 w ≠ 340282366920938463463374607431768211455) :
    val128 (succ128 w) = val128 w + 1 ∧ wfW (succ128 w) := by
  obtain ⟨h0, h1, h2, h3⟩ := hw
  obtain ⟨w0, w1, w2, w3⟩ := w
  simp only [succ128, addOne128, val128, wfW] at *
  split_ifs <;> simp_all <;> omega

theorem R128_iff (a b : Range128) :
    R128 a b ↔ cmpW a.start b.start < 0 ∨ (cmpW a.start b.start = 0 ∧ cmpW a.stop b.stop ≤ 0) := by
  simp only [R128, le128]
  split_ifs with h
  · simp only [decide_eq_true_eq]
    omega
  · simp only [decide_eq_true_eq]
    omega

theorem R128_total (a b : Range128) : R128 a b ∨ R128 b a := by
  rw [R128_iff, R128_iff]
  have hsw := cmpW_swap a.start b.start
  have hsw2 := cmpW_swap a.stop b.stop
  rcases Int.lt_trichotomy (cmpW a.start b.start) 0 with h | h | h
  · exact Or.inl (Or.inl h)
  · rcases Int.le_total (cmpW a.stop b.stop) 0 with h' | h'
    · exact Or.inl (Or.inr ⟨h, h'⟩)
    · right; right; constructor <;> omega
  · right; left; omega

theorem R128_trans {a b c : Range128} (h1 : R128 a b) (h2 : R128 b c) : R128 a c := by
  rw [R128_iff] at h1 h2 ⊢
  rcases h1 with h1 | ⟨h1e, h1s⟩
  · rcases h2 with h2 | ⟨h2e, h2s⟩
    · exact Or.inl (cmpW_lt_trans h1 h2)
    · left
      rw [cmpW_eq_zero_iff] at h2e
      rw [← h2e]
      exact h1
  · rcases h2 with h2 | ⟨h2e, h2s⟩
    · left
      rw [cmpW_eq_zero_iff] at h1e
      rw [h1e]
      exact h2
    · right
      rw [cmpW_eq_zero_iff] at h1e h2e
      constructor
      · rw [h1e, h2e, cmpW_self]
      · exact cmpW_le_trans h1s h2s

theorem R128_antisymm {a b : Range128} (h1 : R128 a b) (h2 : R128 b a) : a = b := by
  rw [R128_iff] at h1 h2
  have hsw := cmpW_swap a.start b.start
  have hsw2 := cmpW_swap a.stop b.stop
  have hst : cmpW a.start b.start = 0 := by omega
  have hsp : cmpW a.stop b.stop = 0 := by omega
  rw [cmpW_eq_zero_iff] at hst hsp
  cases a; cases b
  simp only at hst hsp
  rw [hst, hsp]

/-! ## Theory of the 128-bit walk -/

theorem mergeWalk128_head (l : List Range128) (last : Range128) :
    ∃ e t, mergeWalk128 last l = Range128.mk last.start e :: t ∧ cmpW last.stop e ≤ 0 := by
  induction l generalizing last with
  | nil => exact ⟨last.stop, [], rfl, le_of_eq (cmpW_self _)⟩
  | cons cur rest ih =>
    by_cases h1 : cmpW cur.start (succ128 last.stop) > 0
    · exact ⟨last.stop, mergeWalk128 cur rest, by simp [mergeWalk128, h1],
        le_of_eq (cmpW_self _)⟩
    · by_cases h2 : cmpW cur.stop last.stop > 0
      · obtain ⟨e, t, heq, hle⟩ := ih ⟨last.start, cur.stop⟩
        refine ⟨e, t, by simpa [mergeWalk128, h1, h2] using heq, ?_⟩
        have hsw := cmpW_swap cur.stop last.stop
        have hlt : cmpW last.stop cur.stop ≤ 0 := by omega
        exact cmpW_le_trans hlt hle
      · obtain ⟨e, t, heq, hle⟩ := ih last
        exact ⟨e, t, by simpa [mergeWalk128, h1, h2] using heq, hle⟩

theorem mergeWalk128_elems (l : List Range128) (last : Range128) :
    ∀ x ∈ mergeWalk128 last l,
      (∃ c ∈ last :: l, x.start = c.start ∧ cmpW c.stop x.stop ≤ 0) ∧
      (∃ d ∈ last :: l, x.stop = d.stop) := by
  induction l generalizing last with
  | nil =>
    intro x hx
    simp only [mergeWalk128, List.mem_singleton] at hx
    subst hx
    exact ⟨⟨x, List.mem_cons_self _ _, rfl, le_of_eq (cmpW_self _)⟩,
      ⟨x, List.mem_cons_self _ _, rfl⟩⟩
  | cons cur rest ih =>
    intro x hx
    by_cases h1 : cmpW cur.start (succ128 last.stop) > 0
    · simp only [mergeWalk128, if_pos h1] at hx
      rcases List.mem_cons.mp hx with h | h
      · subst h
        exact ⟨⟨x, List.mem_cons_self _ _, rfl, le_of_eq (cmpW_self _)⟩,
          ⟨x, List.mem_cons_self _ _, rfl⟩⟩
      · obtain ⟨⟨c, hc, hc1, hc2⟩, ⟨d, hd, hd1⟩⟩ := ih cur x h
        exact ⟨⟨c, List.mem_cons_of_mem _ hc, hc1, hc2⟩,
          ⟨d, List.mem_cons_of_mem _ hd, hd1⟩⟩
    · by_cases h2 : cmpW cur.stop last.stop > 0
      · simp only [mergeWalk128, if_neg h1, if_pos h2] at hx
        obtain ⟨⟨c, hc, hc1, hc2⟩, ⟨d, hd, hd1⟩⟩ := ih ⟨last.start, cur.stop⟩ x hx
        constructor
        · rcases List.mem_cons.mp hc with h | h
          · rw [h] at hc1 hc2
            refine ⟨last, List.mem_cons_self _ _, hc1, ?_⟩
            have hsw := cmpW_swap cur.stop last.stop
            have hlt : cmpW last.stop cur.stop ≤ 0 := by omega
            exact cmpW_le_trans hlt hc2
          · exact ⟨c, List.mem_cons_of_mem _ (List.mem_cons_of_mem _ h), hc1, hc2⟩
        · rcases List.mem_cons.mp hd with h | h
          · rw [h] at hd1
            exact ⟨cur, List.mem_cons_of_mem _ (List.mem_cons_self _ _), hd1⟩
          · exact ⟨d, List.mem_cons_of_mem _ (List.mem_cons_of_mem _ h), hd1⟩
      · simp only [mergeWalk128, if_neg h1, if_neg h2] at hx
        obtain ⟨⟨c, hc, hc1, hc2⟩, ⟨d, hd, hd1⟩⟩ := ih last x hx
        constructor
        · rcases List.mem_cons.mp hc with h | h
          · exact ⟨c, by simp [h], hc1, hc2⟩
          · exact ⟨c, List.mem_cons_of_mem _ (List.mem_cons_of_mem _ h), hc1, hc2⟩
        · rcases List.mem_cons.mp hd with h | h
          · exact ⟨d, by simp [h], hd1⟩
          · exact ⟨d, List.mem_cons_of_mem _ (List.mem_cons_of_mem _ h), hd1⟩

theorem mergeWalk128_sorted (l : List Range128) (last : Range128)
    (hs : (last :: l).Sorted R128) :
    (mergeWalk128 last l).Sorted R128 := by
  induction l generalizing last with
  | nil => simp [mergeWalk128]
  | cons cur rest ih =>
    rw [List.sorted_cons] at hs
    obtain ⟨hlast, hrest⟩ := hs
    by_cases h1 : cmpW cur.start (succ128 last.stop) > 0
    · simp only [mergeWalk128, if_pos h1]
      rw [List.sorted_cons]
      refine ⟨?_, ih cur hrest⟩
      intro x hx
      obtain ⟨⟨c, hc, hc1, hc2⟩, _⟩ := mergeWalk128_elems rest cur x hx
      have hlc : R128 last c := hlast c hc
      rw [R128_iff] at hlc ⊢
      rcases hlc with h | ⟨he, hstop⟩
      · left; rw [hc1]; exact h
      · right
        rw [hc1]
        exact ⟨he, cmpW_le_trans hstop hc2⟩
    · rw [List.sorted_cons] at hrest
      obtain ⟨hcur, hrest'⟩ := hrest
      by_cases h2 : cmpW cur.stop last.stop > 0
      · simp only [mergeWalk128, if_neg h1, if_pos h2]
        apply ih
        rw [List.sorted_cons]
        refine ⟨?_, hrest'⟩
        intro b hb
        have hlc : R128 last cur := hlast cur (List.mem_cons_self _ _)
        have hlb : R128 last b := hlast b (List.mem_cons_of_mem _ hb)
        have hcb : R128 cur b := hcur b hb
        rw [R128_iff] at hlc hlb hcb ⊢
        show cmpW last.start b.start < 0 ∨ (cmpW last.start b.start = 0 ∧ cmpW cur.stop b.stop ≤ 0)
        rcases hlb with h | ⟨he, _⟩
        · exact Or.inl h
        · right
          refine ⟨he, ?_⟩
          rcases hlc with hlc' | ⟨hlce, _⟩
          · exfalso
            rcases hcb with hcb' | ⟨hcbe, _⟩
            · have := cmpW_lt_trans hlc' hcb'
              omega
            · rw [cmpW_eq_zero_iff] at hcbe
              rw [hcbe] at hlc'
              omega
          · rw [cmpW_eq_zero_iff] at hlce
            rw [← hlce] at hcb
            rcases hcb with hcb' | ⟨_, hcbs⟩
            · omega
            · exact hcbs
      · simp only [mergeWalk128, if_neg h1, if_neg h2]
        apply ih
        rw [List.sorted_cons]
        exact ⟨fun b hb => hlast b (List.mem_cons_of_mem _ hb), hrest'⟩

theorem mergeWalk128_chain (l : List Range128) (last : Range128) :
    (mergeWalk128 last l).Chain' fun a b => cmpW b.start (succ128 a.stop) > 0 := by
  induction l generalizing last with
  | nil => simp [mergeWalk128]
  | cons cur rest ih =>
    by_cases h1 : cmpW cur.start (succ128 last.stop) > 0
    · simp only [mergeWalk128, if_pos h1]
      obtain ⟨e, t, heq, _⟩ := mergeWalk128_head rest cur
      have hchain := ih cur
      rw [heq] at hchain ⊢
      exact List.Chain'.cons (by simpa using h1) hchain
    · by_cases h2 : cmpW cur.stop last.stop > 0
      · simp only [mergeWalk128, if_neg h1, if_pos h2]
        exact ih _
      · simp only [mergeWalk128, if_neg h1, if_neg h2]
        exact ih _

theorem mergeWalk128_id (l : List Range128) (x : Range128)
    (hc : (x :: l).Chain' fun a b => cmpW b.start (succ128 a.stop) > 0) :
    mergeWalk128 x l = x :: l := by
  induction l generalizing x with
  | nil => rfl
  | cons cur rest ih =>
    rw [List.chain'_cons] at hc
    obtain ⟨h1, h2⟩ := hc
    simp only [mergeWalk128, if_pos h1]
    rw [ih cur h2]

theorem merge128_idem (qs : List Range128) :
    mergeRanges128 (mergeRanges128 qs) = mergeRanges128 qs := by
  haveI : IsTotal Range128 R128 := ⟨R128_total⟩
  haveI : IsTrans Range128 R128 := ⟨fun a b c => R128_trans⟩
  haveI : IsAntisymm Range128 R128 := ⟨fun a b => R128_antisymm⟩
  have hsorted : (mergeRanges128 qs).Sorted R128 := by
    unfold mergeRanges128
    have hs := List.sorted_insertionSort R128 qs
    match h : qs.insertionSort R128 with
    | [] => simp
    | r :: rest =>
      rw [h] at hs
      exact mergeWalk128_sorted rest r hs
  have hchain : (mergeRanges128 qs).Chain' fun a b => cmpW b.start (succ128 a.stop) > 0 := by
    unfold mergeRanges128
    match h : qs.insertionSort R128 with
    | [] => simp
    | r :: rest => exact mergeWalk128_chain rest r
  have key : (mergeRanges128 qs).insertionSort R128 = mergeRanges128 qs :=
    hsorted.insertionSort_eq
  nth_rewrite 1 [mergeRanges128]
  rw [key]
  cases h : mergeRanges128 qs with
  | nil => rfl
  | cons r rest =>
    rw [h] at hchain
    exact mergeWalk128_id rest r hchain

/-! ## Transport of the 128-bit merger to numeric values -/

theorem R128_val {a b : Range128} (ha : wfR a) (hb : wfR b) :
    R128 a b ↔ R32 (valRange a) (valRange b) := by
  rw [R128_iff, R32_iff]
  simp only [valRange]
  have h1 := cmpW_lt_iff_val ha.1 hb.1
  have h2 := cmpW_le_iff_val ha.2 hb.2
  constructor
  · rintro (h | ⟨he, hs⟩)
    · exact Or.inl (h1.mp h)
    · rw [cmpW_eq_zero_iff] at he
      exact Or.inr ⟨by rw [he], h2.mp hs⟩
  · rintro (h | ⟨he, hs⟩)
    · exact Or.inl (h1.mpr h)
    · right
      have heq : a.start = b.start := val128_inj ha.1 hb.1 he
      exact ⟨cmpW_eq_zero_iff a.start b.start |>.mpr heq, h2.mpr hs⟩

theorem insertionSort_val (qs : List Range128) (hw : ∀ r ∈ qs, wfR r) :
    (qs.insertionSort R128).map valRange = (qs.map valRange).insertionSort R32 := by
  haveI : IsTotal Range128 R128 := ⟨R128_total⟩
  haveI : IsTrans Range128 R128 := ⟨fun a b c => R128_trans⟩
  have hperm128 : (qs.insertionSort R128).Perm qs := List.perm_insertionSort R128 qs
  apply List.eq_of_perm_of_sorted (r := R32)
  · exact (hperm128.map valRange).trans (List.perm_insertionSort R32 (qs.map valRange)).symm
  · have hs := List.sorted_insertionSort R128 qs
    unfold List.Sorted at hs ⊢
    rw [List.pairwise_map]
    refine hs.imp_of_mem ?_
    intro a b ha hb hr
    exact (R128_val (hw a (hperm128.mem_iff.mp ha)) (hw b (hperm128.mem_iff.mp hb))).mp hr
  · exact List.sorted_insertionSort R32 (qs.map valRange)

theorem mergeWalk128_val (l : List Range128) (last : Range128)
    (hwl : wfR last) (hw : ∀ r ∈ l, wfR r)
    (hml : val128 last.stop ≠ 340282366920938463463374607431768211455)
    (hm : ∀ r ∈ l, val128 r.stop ≠ 340282366920938463463374607431768211455) :
    (mergeWalk128 last l).map valRange = mergeWalk32 (valRange last) (l.map valRange) := by
  induction l generalizing last with
  | nil => rfl
  | cons cur rest ih =>
    have hwcur : wfR cur := hw cur (List.mem_cons_self _ _)
    have hmcur : val128 cur.stop ≠ 340282366920938463463374607431768211455 :=
      hm cur (List.mem_cons_self _ _)
    have hwrest : ∀ r ∈ rest, wfR r := fun r hr => hw r (List.mem_cons_of_mem _ hr)
    have hmrest : ∀ r ∈ rest, val128 r.stop ≠ 340282366920938463463374607431768211455 :=
      fun r hr => hm r (List.mem_cons_of_mem _ hr)
    obtain ⟨hsv, hsw⟩ := succ128_val hwl.2 hml
    have hc1 : cmpW cur.start (succ128 last.stop) > 0 ↔
        (valRange last).stop + 1 < (valRange cur).start := by
      rw [gt_iff_lt, cmpW_pos_iff_val hwcur.1 hsw, hsv]
      simp only [valRange]
    have hc2 : cmpW cur.stop last.stop > 0 ↔ (valRange last).stop < (valRange cur).stop := by
      rw [gt_iff_lt, cmpW_pos_iff_val hwcur.2 hwl.2]
      simp only [valRange]
    by_cases h1 : cmpW cur.start (succ128 last.stop) > 0
    · simp only [mergeWalk128, if_pos h1, List.map_cons, List.map]
      rw [ih cur hwcur hwrest hmcur hmrest]
      simp only [List.map_cons, mergeWalk32, if_pos (hc1.mp h1)]
    · by_cases h2 : cmpW cur.stop last.stop > 0
      · simp only [mergeWalk128, if_neg h1, if_pos h2]
        have hwmix : wfR ⟨last.start, cur.stop⟩ := ⟨hwl.1, hwcur.2⟩
        rw [ih ⟨last.start, cur.stop⟩ hwmix hwrest hmcur hmrest]
        simp only [List.map_cons, mergeWalk32, if_neg ((not_iff_not.mpr hc1).mp h1),
          if_pos (hc2.mp h2)]
        rfl
      · simp only [mergeWalk128, if_neg h1, if_neg h2]
        rw [ih last hwl hwrest hml hmrest]
        simp only [List.map_cons, mergeWalk32, if_neg ((not_iff_not.mpr hc1).mp h1),
          if_neg ((not_iff_not.mpr hc2).mp h2)]

theorem merge128_val (qs : List Range128)
    (hw : ∀ r ∈ qs, wfR r)
    (hm : ∀ r ∈ qs, val128 r.stop ≠ 340282366920938463463374607431768211455) :
    (mergeRanges128 qs).map valRange = mergeRanges32 (qs.map valRange) := by
  have hsv := insertionSort_val qs hw
  have hperm128 : (qs.insertionSort R128).Perm qs := List.perm_insertionSort R128 qs
  cases h : qs.insertionSort R128 with
  | nil =>
    have h32 : (qs.map valRange).insertionSort R32 = [] := by
      rw [← hsv, h]
      rfl
    unfold mergeRanges128 mergeRanges32
    rw [h, h32]
    rfl
  | cons r rest =>
    have h32 : (qs.map valRange).insertionSort R32 = valRange r :: rest.map valRange := by
      rw [← hsv, h]
      rfl
    rw [h] at hperm128
    have hwmem : ∀ x ∈ r :: rest, wfR x := fun x hx => hw x (hperm128.mem_iff.mp hx)
    have hmmem : ∀ x ∈ r :: rest,
        val128 x.stop ≠ 340282366920938463463374607431768211455 :=
      fun x hx => hm x (hperm128.mem_iff.mp hx)
    unfold mergeRanges128 mergeRanges32
    rw [h, h32]
    exact mergeWalk128_val rest r (hwmem r (List.mem_cons_self _ _))
      (fun x hx => hwmem x (List.mem_cons_of_mem _ hx))
      (hmmem r (List.mem_cons_self _ _))
      (fun x hx => hmmem x (List.mem_cons_of_mem _ hx))

theorem merge128_elems (qs : List Range128) :
    ∀ x ∈ mergeRanges128 qs, (∃ c ∈ qs, x.start = c.start) ∧ (∃ d ∈ qs, x.stop = d.stop) := by
  intro x hx
  have hperm128 : (qs.insertionSort R128).Perm qs := List.perm_insertionSort R128 qs
  unfold mergeRanges128 at hx
  revert hx
  cases h : qs.insertionSort R128 with
  | nil => intro hx; cases hx
  | cons r rest =>
    intro hx
    rw [h] at hperm128
    obtain ⟨⟨c, hc, hc1, _⟩, ⟨d, hd, hd1⟩⟩ := mergeWalk128_elems rest r x hx
    exact ⟨⟨c, hperm128.mem_iff.mp hc, hc1⟩, ⟨d, hperm128.mem_iff.mp hd, hd1⟩⟩

theorem map_valRange_inj (l1 : List Range128) :
    ∀ l2 : List Range128, (∀ x ∈ l1, wfR x) → (∀ x ∈ l2, wfR x) →
    l1.map valRange = l2.map valRange → l1 = l2 := by
  induction l1 with
  | nil =>
    intro l2 _ _ h
    cases l2 with
    | nil => rfl
    | cons b t => simp at h
  | cons a t1 ih =>
    intro l2 hw1 hw2 h
    cases l2 with
    | nil => simp at h
    | cons b t2 =>
      simp only [List.map_cons, List.cons.injEq] at h
      obtain ⟨hab, htails⟩ := h
      have hwa := hw1 a (List.mem_cons_self _ _)
      have hwb := hw2 b (List.mem_cons_self _ _)
      have h1 : val128 a.start = val128 b.start := congrArg Range32.start hab
      have h2 : val128 a.stop = val128 b.stop := congrArg Range32.stop hab
      have heq : a = b := by
        cases a; cases b
        simp only [Range128.mk.injEq]
        exact ⟨val128_inj hwa.1 hwb.1 h1, val128_inj hwa.2 hwb.2 h2⟩
      rw [heq, ih t2 (fun x hx => hw1 x (List.mem_cons_of_mem _ hx))
        (fun x hx => hw2 x (List.mem_cons_of_mem _ hx)) htails]

theorem merge128_absorb (qs S : List Range128)
    (hw : ∀ r ∈ qs, wfR r)
    (hwv : ∀ r ∈ qs, val128 r.start ≤ val128 r.stop)
    (hm : ∀ r ∈ qs, val128 r.stop ≠ 340282366920938463463374607431768211455)
    (hS : ∀ s ∈ S, s ∈ mergeRanges128 qs) :
    mergeRanges128 (qs ++ S) = mergeRanges128 qs := by
  have hwS : ∀ s ∈ S, wfR s := by
    intro s hs
    obtain ⟨⟨c, hc, hc1⟩, ⟨d, hd, hd1⟩⟩ := merge128_elems qs s (hS s hs)
    exact ⟨hc1 ▸ (hw c hc).1, hd1 ▸ (hw d hd).2⟩
  have hmS : ∀ s ∈ S, val128 s.stop ≠ 340282366920938463463374607431768211455 := by
    intro s hs
    obtain ⟨_, ⟨d, hd, hd1⟩⟩ := merge128_elems qs s (hS s hs)
    rw [hd1]
    exact hm d hd
  have hwall : ∀ r ∈ qs ++ S, wfR r := by
    intro r hr
    rcases List.mem_append.mp hr with h | h
    · exact hw r h
    · exact hwS r h
  have hmall : ∀ r ∈ qs ++ S,
      val128 r.stop ≠ 340282366920938463463374607431768211455 := by
    intro r hr
    rcases List.mem_append.mp hr with h | h
    · exact hm r h
    · exact hmS r h
  have h2 : (mergeRanges128 qs).map valRange = mergeRanges32 (qs.map valRange) :=
    merge128_val qs hw hm
  have h1 : (mergeRanges128 (qs ++ S)).map valRange =
      mergeRanges32 (qs.map valRange ++ S.map valRange) := by
    rw [merge128_val _ hwall hmall, List.map_append]
  have h3 : mergeRanges32 (qs.map valRange ++ S.map valRange) =
      mergeRanges32 (qs.map valRange) := by
    apply merge32_absorb
    · intro r hr
      obtain ⟨q, hq, rfl⟩ := List.mem_map.mp hr
      exact hwv q hq
    · intro s hs
      obtain ⟨t, ht, rfl⟩ := List.mem_map.mp hs
      rw [← h2]
      exact List.mem_map_of_mem valRange (hS t ht)
  have hwout1 : ∀ x ∈ mergeRanges128 (qs ++ S), wfR x := by
    intro x hx
    obtain ⟨⟨c, hc, hc1⟩, ⟨d, hd, hd1⟩⟩ := merge128_elems _ x hx
    exact ⟨hc1 ▸ (hwall c hc).1, hd1 ▸ (hwall d hd).2⟩
  have hwout2 : ∀ x ∈ mergeRanges128 qs, wfR x := by
    intro x hx
    obtain ⟨⟨c, hc, hc1⟩, ⟨d, hd, hd1⟩⟩ := merge128_elems _ x hx
    exact ⟨hc1 ▸ (hw c hc).1, hd1 ▸ (hw d hd).2⟩
  exact map_valRange_inj _ _ hwout1 hwout2 (h1.trans (h3.trans h2.symm))

theorem merge128_gapped (qs : List Range128)
    (hw : ∀ r ∈ qs, wfR r)
    (hm : ∀ r ∈ qs, val128 r.stop ≠ 340282366920938463463374607431768211455) :
    (mergeRanges128 qs).Chain' fun a b => val128 a.stop + 1 < val128 b.start := by
  have h := merge32_gapped (qs.map valRange)
  rw [← merge128_val qs hw hm] at h
  unfold Gapped at h
  rw [List.chain'_map] at h
  exact h

theorem merge128_wfvals (qs : List Range128)
    (hw : ∀ r ∈ qs, wfR r)
    (hwv : ∀ r ∈ qs, val128 r.start ≤ val128 r.stop)
    (hm : ∀ r ∈ qs, val128 r.stop ≠ 340282366920938463463374607431768211455) :
    ∀ r ∈ mergeRanges128 qs, val128 r.start ≤ val128 r.stop := by
  intro r hr
  have hmem : valRange r ∈ mergeRanges32 (qs.map valRange) := by
    rw [← merge128_val qs hw hm]
    exact List.mem_map_of_mem valRange hr
  have := merge32_wf (qs.map valRange) ?_ _ hmem
  · exact this
  · intro x hx
    obtain ⟨q, hq, rfl⟩ := List.mem_map.mp hx
    exact hwv q hq

/-! ## Claims C2 and C9 about the range mergers -/

/-- C2 (amended): the output of the 32-bit range merger is a sorted sequence
of wellformed ranges in which every two consecutive ranges r, r! satisfy
r!.start > r.stop + 1 with the sum computed exactly (JavaScript doubles
represent these sums exactly, so no wraparound occurs at 32 bits); the
128-bit merger satisfies the same invariant in exact 128-bit arithmetic
provided no input range ends at the maximum address 2^128 - 1.  When a range
does end there, addOne128 wraps to zero and the invariant can fail, as the
counterexample shows. -/
theorem c2_range_merger_invariant (rs : List Range32) (qs : List Range128)
    (hw32 : ∀ r ∈ rs, r.start ≤ r.stop)
    (hw : ∀ r ∈ qs, wfR r)
    (hwv : ∀ r ∈ qs, val128 r.start ≤ val128 r.stop)
    (hm : ∀ r ∈ qs, val128 r.stop ≠ 340282366920938463463374607431768211455) :
    ((mergeRanges32 rs).Chain' (fun a b => a.stop + 1 < b.start)
      ∧ ∀ r ∈ mergeRanges32 rs, r.start ≤ r.stop)
    ∧ ((mergeRanges128 qs).Chain' (fun a b => val128 a.stop + 1 < val128 b.start)
      ∧ ∀ r ∈ mergeRanges128 qs, val128 r.start ≤ val128 r.stop) :=
  ⟨⟨merge32_gapped rs, merge32_wf rs hw32⟩,
   ⟨merge128_gapped qs hw hm, merge128_wfvals qs hw hwv hm⟩⟩

/-- Witness for C2 at concrete inputs: the two IPv4 ranges 0-9 and 10-19 and
the small IPv6 range 0-5. -/
theorem c2_range_merger_invariant_witness :
    ((∀ r ∈ [Range32.mk 0 9, Range32.mk 10 19], r.start ≤ r.stop)
      ∧ (∀ r ∈ [Range128.mk ⟨0, 0, 0, 0⟩ ⟨0, 0, 0, 5⟩], wfR r)
      ∧ (∀ r ∈ [Range128.mk ⟨0, 0, 0, 0⟩ ⟨0, 0, 0, 5⟩], val128 r.start ≤ val128 r.stop)
      ∧ (∀ r ∈ [Range128.mk ⟨0, 0, 0, 0⟩ ⟨0, 0, 0, 5⟩],
          val128 r.stop ≠ 340282366920938463463374607431768211455))
    ∧ (((mergeRanges32 [Range32.mk 0 9, Range32.mk 10 19]).Chain'
          (fun a b => a.stop + 1 < b.start)
        ∧ ∀ r ∈ mergeRanges32 [Range32.mk 0 9, Range32.mk 10 19], r.start ≤ r.stop)
      ∧ (((mergeRanges128 [Range128.mk ⟨0, 0, 0, 0⟩ ⟨0, 0, 0, 5⟩]).Chain'
            (fun a b => val128 a.stop + 1 < val128 b.start))
        ∧ ∀ r ∈ mergeRanges128 [Range128.mk ⟨0, 0, 0, 0⟩ ⟨0, 0, 0, 5⟩],
            val128 r.start ≤ val128 r.stop)) :=
  ⟨⟨by decide, by decide, by decide, by decide⟩,
    c2_range_merger_invariant _ _ (by decide) (by decide) (by decide) (by decide)⟩

/-- C2 is refuted as stated: with the normalized ranges of the valid CIDRs
"::/0" and "0:2::/31", mergeRanges128 keeps both ranges even though the
second lies inside the first, because the end + 1 computation of addOne128
wraps to zero modulo 2^128; the retained pair violates
r[1].start > r[0].end + 1 in exact arithmetic. -/
theorem c2_range_merger_counterexample :
    mergeRanges128
        [Range128.mk ⟨0, 0, 0, 0⟩ ⟨4294967295, 4294967295, 4294967295, 4294967295⟩,
         Range128.mk ⟨2, 0, 0, 0⟩ ⟨3, 4294967295, 4294967295, 4294967295⟩] =
      [Range128.mk ⟨0, 0, 0, 0⟩ ⟨4294967295, 4294967295, 4294967295, 4294967295⟩,
       Range128.mk ⟨2, 0, 0, 0⟩ ⟨3, 4294967295, 4294967295, 4294967295⟩]
    ∧ ¬ (val128 ⟨2, 0, 0, 0⟩ >
          val128 ⟨4294967295, 4294967295, 4294967295, 4294967295⟩ + 1) := by
  constructor
  · decide
  · decide

/-- C9 (amended): both mergers are idempotent (the 128-bit one even when a
range ends at the maximum address, where addOne128 wraps); merging the union
of a collection with any subset of its merge result reproduces the merge
result, for the 32-bit merger unconditionally and for the 128-bit merger
provided no input range ends at the maximum address 2^128 - 1.  With a range
ending there the union property fails, as the counterexample shows. -/
theorem c9_merge_idempotent_absorbent
    (rs S32 : List Range32) (qs S128 : List Range128)
    (hw32 : ∀ r ∈ rs, r.start ≤ r.stop)
    (hS32 : ∀ s ∈ S32, s ∈ mergeRanges32 rs)
    (hw : ∀ r ∈ qs, wfR r)
    (hwv : ∀ r ∈ qs, val128 r.start ≤ val128 r.stop)
    (hm : ∀ r ∈ qs, val128 r.stop ≠ 340282366920938463463374607431768211455)
    (hS128 : ∀ s ∈ S128, s ∈ mergeRanges128 qs) :
    mergeRanges32 (mergeRanges32 rs) = mergeRanges32 rs
    ∧ mergeRanges32 (rs ++ S32) = mergeRanges32 rs
    ∧ mergeRanges128 (mergeRanges128 qs) = mergeRanges128 qs
    ∧ mergeRanges128 (qs ++ S128) = mergeRanges128 qs :=
  ⟨merge32_idem rs hw32, merge32_absorb rs S32 hw32 hS32, merge128_idem qs,
    merge128_absorb qs S128 hw hwv hm hS128⟩

/-- Witness for C9 at concrete inputs: IPv4 ranges 0-9 and 10-19 with their
merge result 0-19 re-added, and a small IPv6 range re-added to itself. -/
theorem c9_merge_idempotent_absorbent_witness :
    ((∀ r ∈ [Range32.mk 0 9, Range32.mk 10 19], r.start ≤ r.stop)
      ∧ (∀ s ∈ [Range32.mk 0 19], s ∈ mergeRanges32 [Range32.mk 0 9, Range32.mk 10 19])
      ∧ (∀ r ∈ [Range128.mk ⟨0, 0, 0, 0⟩ ⟨0, 0, 0, 5⟩], wfR r)
      ∧ (∀ r ∈ [Range128.mk ⟨0, 0, 0, 0⟩ ⟨0, 0, 0, 5⟩], val128 r.start ≤ val128 r.stop)
      ∧ (∀ r ∈ [Range128.mk ⟨0, 0, 0, 0⟩ ⟨0, 0, 0, 5⟩],
          val128 r.stop ≠ 340282366920938463463374607431768211455)
      ∧ (∀ s ∈ [Range128.mk ⟨0, 0, 0, 0⟩ ⟨0, 0, 0, 5⟩],
          s ∈ mergeRanges128 [Range128.mk ⟨0, 0, 0, 0⟩ ⟨0, 0, 0, 5⟩]))
    ∧ (mergeRanges32 (mergeRanges32 [Range32.mk 0 9, Range32.mk 10 19]) =
          mergeRanges32 [Range32.mk 0 9, Range32.mk 10 19]
      ∧ mergeRanges32 ([Range32.mk 0 9, Range32.mk 10 19] ++ [Range32.mk 0 19]) =
          mergeRanges32 [Range32.mk 0 9, Range32.mk 10 19]
      ∧ mergeRanges128 (mergeRanges128 [Range128.mk ⟨0, 0, 0, 0⟩ ⟨0, 0, 0, 5⟩]) =
          mergeRanges128 [Range128.mk ⟨0, 0, 0, 0⟩ ⟨0, 0, 0, 5⟩]
      ∧ mergeRanges128 ([Range128.mk ⟨0, 0, 0, 0⟩ ⟨0, 0, 0, 5⟩] ++
            [Range128.mk ⟨0, 0, 0, 0⟩ ⟨0, 0, 0, 5⟩]) =
          mergeRanges128 [Range128.mk ⟨0, 0, 0, 0⟩ ⟨0, 0, 0, 5⟩]) :=
  ⟨⟨by decide, by decide, by decide, by decide, by decide, by decide⟩,
    c9_merge_idempotent_absorbent _ _ _ _ (by decide) (by decide) (by decide)
      (by decide) (by decide) (by decide)⟩

/-- C9 is refuted as stated: the single 128-bit range from address 5 to the
maximum address merges to itself, yet merging its union with that subset of
the merge result does not reproduce the result, because end + 1 wraps to zero
and the duplicate is pushed instead of absorbed. -/
theorem c9_merge_absorbent_counterexample :
    mergeRanges128 [Range128.mk ⟨0, 0, 0, 5⟩ ⟨4294967295, 4294967295, 4294967295, 4294967295⟩] =
      [Range128.mk ⟨0, 0, 0, 5⟩ ⟨4294967295, 4294967295, 4294967295, 4294967295⟩]
    ∧ (∀ s ∈ [Range128.mk ⟨0, 0, 0, 5⟩ ⟨4294967295, 4294967295, 4294967295, 4294967295⟩],
        s ∈ mergeRanges128
          [Range128.mk ⟨0, 0, 0, 5⟩ ⟨4294967295, 4294967295, 4294967295, 4294967295⟩])
    ∧ mergeRanges128
        ([Range128.mk ⟨0, 0, 0, 5⟩ ⟨4294967295, 4294967295, 4294967295, 4294967295⟩] ++
         [Range128.mk ⟨0, 0, 0, 5⟩ ⟨4294967295, 4294967295, 4294967295, 4294967295⟩]) ≠
      mergeRanges128
        [Range128.mk ⟨0, 0, 0, 5⟩ ⟨4294967295, 4294967295, 4294967295, 4294967295⟩] := by
  refine ⟨by decide, by decide, by decide⟩

/-! ## Claims C1, C4 and C7: concrete evaluations of the defects -/

/-- C1 fails on the code: with the loaded list containing the valid CIDRs
::/0 and 0:2::/31, the address 0:4:: lies inside the normalized range of
::/0 (which covers the whole space), yet the membership query against the
built IPv6 index answers false.  The wrapped end + 1 of addOne128 lets the
contained range 0:2::/31 survive the merge; both ranges then land in the
super-range list, and the binary search selects the second and fails its
end check without ever consulting the first. -/
theorem c1_membership_false_negative :
    ipv6CidrToRange "::/0" =
      some ⟨⟨0, 0, 0, 0⟩, ⟨4294967295, 4294967295, 4294967295, 4294967295⟩⟩
    ∧ ipv6ToParts "0:4::" = some ⟨4, 0, 0, 0⟩
    ∧ val128 ⟨0, 0, 0, 0⟩ ≤ val128 ⟨4, 0, 0, 0⟩
    ∧ val128 ⟨4, 0, 0, 0⟩ ≤ val128 ⟨4294967295, 4294967295, 4294967295, 4294967295⟩
    ∧ containsIpv6Parts (buildIpv6IndexFromCidrs ["::/0", "0:2::/31"]) 4 0 0 0 = false
    ∧ isVpn (buildIpv4IndexFromCidrs []) (buildIpv6IndexFromCidrs ["::/0", "0:2::/31"])
        "0:4::" = false := by
  refine ⟨by decide, by decide, by decide, by decide, by decide, by decide⟩

/-- C4 fails on the code: the IPv4 parser performs no digit-count check
between dots, so an empty octet is read as zero instead of yielding the
distinguished failure; 1..2.3 parses as the address 1.0.2.3 and a dotted
quad of empty octets parses as zero, also through the IPv4-in-IPv6 tail
path.  The IPv6 hex-group scanner, by contrast, does reject an empty group
between single colons. -/
theorem c4_empty_octet_accepted :
    ipv4ToInt "1..2.3" = some 16777731
    ∧ ipv4ToInt "..." = some 0
    ∧ ipv6ToParts "::..." = some ⟨0, 0, 0, 0⟩
    ∧ ipv6ToParts ":1:2:3:4:5:6:7:8" = none := by
  refine ⟨by decide, by decide, by decide, by decide⟩

/-- C7 fails on the code: the 39-character body
0000::000:0000:0000:0000:0000:0000:0000 is a valid ::-compressed form of
the all-zero address, and the general scanning path parses it to the same
four words as the canonical fully-expanded form; but because its colons
happen to sit at the seven fixed offsets, ipv6ToParts sends it down the
fast path, which rejects the stray colon as a bad hex digit and returns
null without falling back.  With ::/0 loaded, isVpn of the expanded form is
true while isVpn of this compressed form is false. -/
theorem c7_fastpath_compressed_disagreement :
    ipv6ToParts "0000:0000:0000:0000:0000:0000:0000:0000" = some ⟨0, 0, 0, 0⟩
    ∧ ipv6Scan (List.replicate 8 0) 0 0 0 none
        "0000::000:0000:0000:0000:0000:0000:0000".toList
        "0000::000:0000:0000:0000:0000:0000:0000".toList = some ⟨0, 0, 0, 0⟩
    ∧ ipv6ToParts "0000::000:0000:0000:0000:0000:0000:0000" = none
    ∧ isVpnV6 (buildIpv6IndexFromCidrs ["::/0"])
        "0000:0000:0000:0000:0000:0000:0000:0000" = true
    ∧ isVpnV6 (buildIpv6IndexFromCidrs ["::/0"])
        "0000::000:0000:0000:0000:0000:0000:0000" = false := by
  refine ⟨by decide, by decide, by decide, by decide, by decide⟩

/-! ## Claim C10: family dispatch of isVpn -/

theorem isVpnScan_skip (i4 : Ipv4Index) (i6 : Ipv6Index) (ip : String)
    (pre rest : List Char)
    (h : ∀ c ∈ pre, c.toNat ≠ 58 ∧ c.toNat ≠ 46 ∧ c.toNat ≠ 47 ∧ c.toNat ≠ 37) :
    isVpnScan i4 i6 ip (pre ++ rest) = isVpnScan i4 i6 ip rest := by
  induction pre with
  | nil => rfl
  | cons c cs ih =>
    obtain ⟨h1, h2, h3, h4⟩ := h c (List.mem_cons_self _ _)
    simp only [List.cons_append, isVpnScan, if_neg h1, if_neg h2]
    rw [if_neg (by simp [h3, h4])]
    exact ih fun c hc => h c (List.mem_cons_of_mem _ hc)

theorem isVpnScan_nosignal (i4 : Ipv4Index) (i6 : Ipv6Index) (ip : String) :
    ∀ cs : List Char, (∀ c ∈ bodyChars cs, c.toNat ≠ 58 ∧ c.toNat ≠ 46) →
    isVpnScan i4 i6 ip cs = false := by
  intro cs
  induction cs with
  | nil => intro _; rfl
  | cons c rest ih =>
    intro h
    by_cases hterm : c.toNat = 47 ∨ c.toNat = 37
    · have h58 : c.toNat ≠ 58 := by rcases hterm with h | h <;> omega
      have h46 : c.toNat ≠ 46 := by rcases hterm with h | h <;> omega
      simp only [isVpnScan, if_neg h58, if_neg h46, if_pos hterm]
    · have hc : c ∈ bodyChars (c :: rest) := by
        unfold bodyChars
        rw [if_neg hterm]
        exact List.mem_cons_self _ _
      obtain ⟨h1, h2⟩ := h c hc
      simp only [isVpnScan, if_neg h1, if_neg h2, if_neg hterm]
      apply ih
      intro x hx
      refine h x ?_
      unfold bodyChars
      rw [if_neg hterm]
      exact List.mem_cons_of_mem _ hx

/-- C10: when the query text contains both a colon and a dot, isVpn
dispatches on whichever appears first in a left-to-right scan that stops at
the first slash or percent, routing a colon-first input (such as the
IPv4-mapped form ::ffff:1.2.3.4) to the IPv6 path and a dot-first input to
the IPv4 path; and an input with neither signal before a terminator is
false against every index pair. -/
theorem c10_isVpn_dispatch :
    (∀ (i4 : Ipv4Index) (i6 : Ipv6Index) (ip : String) (pre suf : List Char),
        ip.toList = pre ++ ':' :: suf →
        (∀ c ∈ pre, c.toNat ≠ 58 ∧ c.toNat ≠ 46 ∧ c.toNat ≠ 47 ∧ c.toNat ≠ 37) →
        isVpn i4 i6 ip = isVpnV6 i6 ip)
    ∧ (∀ (i4 : Ipv4Index) (i6 : Ipv6Index) (ip : String) (pre suf : List Char),
        ip.toList = pre ++ '.' :: suf →
        (∀ c ∈ pre, c.toNat ≠ 58 ∧ c.toNat ≠ 46 ∧ c.toNat ≠ 47 ∧ c.toNat ≠ 37) →
        isVpn i4 i6 ip = isVpnV4 i4 ip)
    ∧ (∀ (i4 : Ipv4Index) (i6 : Ipv6Index) (ip : String),
        (∀ c ∈ bodyChars ip.toList, c.toNat ≠ 58 ∧ c.toNat ≠ 46) →
        isVpn i4 i6 ip = false)
    ∧ (∀ (i4 : Ipv4Index) (i6 : Ipv6Index),
        isVpn i4 i6 "::ffff:1.2.3.4" = isVpnV6 i6 "::ffff:1.2.3.4") := by
  refine ⟨?_, ?_, ?_, ?_⟩
  · intro i4 i6 ip pre suf hsplit hpre
    unfold isVpn
    rw [hsplit, isVpnScan_skip i4 i6 ip pre _ hpre]
    rfl
  · intro i4 i6 ip pre suf hsplit hpre
    unfold isVpn
    rw [hsplit, isVpnScan_skip i4 i6 ip pre _ hpre]
    rfl
  · intro i4 i6 ip h
    exact isVpnScan_nosignal i4 i6 ip ip.toList h
  · intro i4 i6
    rfl

/-- Witness for C10 at concrete inputs against the empty indexes. -/
theorem c10_isVpn_dispatch_witness :
    (("x:1.2.3.4" : String).toList = ['x'] ++ ':' :: "1.2.3.4".toList
      ∧ isVpn (buildIpv4IndexFromCidrs []) (buildIpv6IndexFromCidrs []) "x:1.2.3.4" =
          isVpnV6 (buildIpv6IndexFromCidrs []) "x:1.2.3.4")
    ∧ isVpn (buildIpv4IndexFromCidrs []) (buildIpv6IndexFromCidrs []) "1.2:3" =
        isVpnV4 (buildIpv4IndexFromCidrs []) "1.2:3"
    ∧ isVpn (buildIpv4IndexFromCidrs []) (buildIpv6IndexFromCidrs []) "abc/1.2.3.4" = false := by
  refine ⟨⟨by decide, ?_⟩, ?_, ?_⟩
  · exact c10_isVpn_dispatch.1 _ _ _ ['x'] "1.2.3.4".toList (by decide) (by decide)
  · exact c10_isVpn_dispatch.2.1 _ _ _ ['1'] "2:3".toList (by decide) (by decide)
  · exact c10_isVpn_dispatch.2.2.1 _ _ _ (by decide)

/-! ## Claims C5 and C6 about the CIDR normalizers

The prefix field of a CIDR is coerced with Number and checked with
Number.isInteger and the family bound.  The lemmas below compute that
pipeline on all-digit fields and characterize exactly when the normalizers
produce a range. -/

/-- Characterization of Char.isDigit by character code. -/
theorem isDigit_iff (c : Char) : c.isDigit = true ↔ (48 ≤ c.toNat ∧ c.toNat ≤ 57) := by
  simp [Char.isDigit, Char.toNat, UInt32.le_def, BitVec.le_def, UInt32.toNat]

/-- Decimal digits are not white space. -/
theorem isJsWs_of_digit (c : Char) (h : c.isDigit = true) : isJsWs c = false := by
  rw [isDigit_iff] at h
  simp only [isJsWs, decide_eq_false_iff_not]
  omega

/-- Splitting a list free of the separator yields the singleton. -/
theorem splitOnChar_no_sep (sep : Char) (l : List Char) (h : sep ∉ l) :
    splitOnChar sep l = [l] := by
  induction l with
  | nil => rfl
  | cons c cs ih =>
    simp only [List.mem_cons, not_or] at h
    have hc : ¬ (c = sep) := fun hc => h.1 hc.symm
    simp [splitOnChar, hc, ih h.2]

/-- Splitting at the first separator occurrence. -/
theorem splitOnChar_append (sep : Char) (base rest : List Char) (h : sep ∉ base) :
    splitOnChar sep (base ++ sep :: rest) = base :: splitOnChar sep rest := by
  induction base with
  | nil => simp [splitOnChar]
  | cons c cs ih =>
    simp only [List.mem_cons, not_or] at h
    have hc : ¬ (c = sep) := fun hc => h.1 hc.symm
    simp [splitOnChar, hc, ih h.2]

/-- dropWhile is the identity when no element satisfies the predicate. -/
theorem dropWhile_all_neg (p : Char → Bool) (l : List Char)
    (h : ∀ c ∈ l, p c = false) : l.dropWhile p = l := by
  cases l with
  | nil => rfl
  | cons c cs => rw [List.dropWhile_cons, h c (by simp)]; simp

/-- An all-digit field is read as the plain decimal integer literal. -/
theorem parseUnsignedDec_digits (cs : List Char) (hne : cs ≠ [])
    (hd : ∀ x ∈ cs, x.isDigit = true) :
    parseUnsignedDec cs = some (digitsToNat cs, 1) := by
  have ht : cs.takeWhile Char.isDigit = cs := List.takeWhile_eq_self_iff.mpr hd
  have hdw : cs.dropWhile Char.isDigit = [] := List.dropWhile_eq_nil_iff.mpr hd
  simp [parseUnsignedDec, ht, hdw, hne]

/-- An all-digit field carries no sign and is not the word Infinity. -/
theorem parseSignedDec_digits (c : Char) (cs : List Char)
    (hd : ∀ x ∈ c :: cs, x.isDigit = true) :
    parseSignedDec (c :: cs) = some ⟨false, digitsToNat (c :: cs), 1⟩ := by
  have hc := hd c (by simp)
  rw [isDigit_iff] at hc
  have h43 : ¬ (c.toNat = 43) := by omega
  have h45 : ¬ (c.toNat = 45) := by omega
  have hInf : ¬ ((c :: cs) = [ 'I', 'n', 'f', 'i', 'n', 'i', 't', 'y' ]) := by
    intro he
    rw [List.cons.injEq] at he
    rw [he.1] at hc
    revert hc; decide
  rw [parseSignedDec]
  simp only [h43, h45, if_false, hInf]
  rw [parseUnsignedDec_digits (c :: cs) (by simp) hd]
  rfl

/-- Number on a nonempty all-digit field: no trimming applies, no radix
marker fires, and the decimal value is returned over denominator one. -/
theorem jsNumberOfChars_digits (c : Char) (cs : List Char)
    (hd : ∀ x ∈ c :: cs, x.isDigit = true) :
    jsNumberOfChars (c :: cs) = some ⟨false, digitsToNat (c :: cs), 1⟩ := by
  have hnws : ∀ x ∈ c :: cs, isJsWs x = false := fun x hx => isJsWs_of_digit x (hd x hx)
  have h1 : ((c :: cs).dropWhile fun x => isJsWs x) = c :: cs :=
    dropWhile_all_neg _ _ hnws
  have h2 : ((c :: cs).reverse.dropWhile fun x => isJsWs x) = (c :: cs).reverse :=
    dropWhile_all_neg _ _ (fun x hx => hnws x (List.mem_reverse.mp hx))
  rw [jsNumberOfChars, h1, h2, List.reverse_reverse]
  cases cs with
  | nil => rw [parseSignedDec_digits c [] hd]
  | cons x cs2 =>
    have hx := hd x (by simp)
    rw [isDigit_iff] at hx
    have g1 : ¬ (c.toNat = 48 ∧ (x.toNat = 120 ∨ x.toNat = 88)) := by omega
    have g2 : ¬ (c.toNat = 48 ∧ (x.toNat = 111 ∨ x.toNat = 79)) := by omega
    have g3 : ¬ (c.toNat = 48 ∧ (x.toNat = 98 ∨ x.toNat = 66)) := by omega
    simp only [g1, g2, g3, if_false]
    rw [parseSignedDec_digits c (x :: cs2) hd]

/-- The normalizer check on an integer value over denominator one. -/
theorem checkedPrefixVal_int (n bound : ℕ) :
    checkedPrefixVal (some ⟨false, n, 1⟩) bound =
      if n > bound then none else some n := by
  simp [checkedPrefixVal, Nat.mod_one]

/-- Digit characters are not the slash. -/
theorem digits_no_slash (pstr : List Char) (hd : ∀ x ∈ pstr, x.isDigit = true) :
    '/' ∉ pstr := by
  intro hm
  have := hd _ hm
  revert this; decide

/-- On a canonical CIDR (a slash-free base followed by one slash and a
nonempty decimal prefix at most 32) the IPv4 normalizer applies the mask
formula to the parsed address. -/
theorem ipv4CidrToRangeCore_canonical (base pstr : List Char) (p a : ℕ)
    (hb : '/' ∉ base) (hne : pstr ≠ []) (hdig : ∀ x ∈ pstr, x.isDigit = true)
    (hp : digitsToNat pstr = p) (hple : p ≤ 32)
    (ha : ipv4Scan 0 0 0 base = some a) :
    ipv4CidrToRangeCore (base ++ '/' :: pstr) =
      some ⟨a &&& mask4 p, (a &&& mask4 p) ||| (mask4 p ^^^ 0xFFFFFFFF)⟩ := by
  have hsplit : splitOnChar '/' (base ++ '/' :: pstr) = [base, pstr] := by
    rw [splitOnChar_append '/' base pstr hb,
      splitOnChar_no_sep '/' pstr (digits_no_slash pstr hdig)]
  obtain ⟨c, cs, rfl⟩ : ∃ c cs, pstr = c :: cs := by
    cases pstr with
    | nil => exact absurd rfl hne
    | cons c cs => exact ⟨c, cs, rfl⟩
  rw [ipv4CidrToRangeCore]
  simp only [hsplit, List.headD, List.getElem?_cons_succ, List.getElem?_cons_zero]
  rw [jsNumberOfChars_digits c cs hdig, checkedPrefixVal_int, hp,
    if_neg (by omega : ¬ p > 32), ha]

/-- The IPv4 normalizer succeeds exactly when a second slash field exists,
its Number coercion passes the integer and bound checks, and the address
parses. -/
theorem ipv4CidrToRangeCore_isSome_iff (cidr : List Char) :
    (ipv4CidrToRangeCore cidr).isSome = true ↔
      ∃ pstr p a, (splitOnChar '/' cidr)[1]? = some pstr ∧
        checkedPrefixVal (jsNumberOfChars pstr) 32 = some p ∧
        ipv4Scan 0 0 0 ((splitOnChar '/' cidr).headD []) = some a := by
  rw [ipv4CidrToRangeCore]
  cases h1 : (splitOnChar '/' cidr)[1]? with
  | none => simp [h1]
  | some pstr =>
    cases h2 : checkedPrefixVal (jsNumberOfChars pstr) 32 with
    | none => simp [h1, h2]
    | some p =>
      cases h3 : ipv4Scan 0 0 0 ((splitOnChar '/' cidr).headD []) with
      | none => simp [h1, h2, h3]
      | some a => simp [h1, h2, h3]

/-- The IPv6 normalizer succeeds exactly when a second slash field exists,
its Number coercion passes the integer and bound checks, and the address
parses. -/
theorem ipv6CidrToRangeCore_isSome_iff (cidr : List Char) :
    (ipv6CidrToRangeCore cidr).isSome = true ↔
      ∃ pstr p w, (splitOnChar '/' cidr)[1]? = some pstr ∧
        checkedPrefixVal (jsNumberOfChars pstr) 128 = some p ∧
        ipv6ToPartsCore ((splitOnChar '/' cidr).headD []) = some w := by
  rw [ipv6CidrToRangeCore]
  cases h1 : (splitOnChar '/' cidr)[1]? with
  | none => simp [h1]
  | some pstr =>
    cases h2 : checkedPrefixVal (jsNumberOfChars pstr) 128 with
    | none => simp [h1, h2]
    | some p =>
      cases h3 : ipv6ToPartsCore ((splitOnChar '/' cidr).headD []) with
      | none => simp [h1, h2, h3]
      | some w => simp [h1, h2, h3]

/-- The normalizer check fails exactly on a non-integral value, a negative
nonzero value, or a value above the bound. -/
theorem checkedPrefixVal_none_iff (j : JsNum) (b : ℕ) :
    checkedPrefixVal (some j) b = none ↔
      (¬ j.num % j.den = 0 ∨ (j.neg = true ∧ ¬ j.num = 0) ∨ j.num / j.den > b) := by
  rw [checkedPrefixVal]
  split_ifs with hmod hneg hgt <;> simp_all

/-- C6: on every valid IPv4 CIDR (a slash-free base address that parses,
one slash, a nonempty decimal prefix field of value p at most 32) the
normalizer returns start = addr AND mask and end = start OR (NOT mask)
where mask is mask4 p, the 32-bit truncation of 0xFFFFFFFF shifted left by
32 - p (zero for p = 0), whose value is 2^32 - 2^(32-p); in particular
"10.0.0.0/8" yields the range 0x0A000000 to 0x0AFFFFFF. -/
theorem c6_ipv4_cidr_mask_formula (base pstr : List Char) (p a : ℕ)
    (hb : '/' ∉ base) (hne : pstr ≠ []) (hdig : ∀ x ∈ pstr, x.isDigit = true)
    (hp : digitsToNat pstr = p) (hple : p ≤ 32)
    (ha : ipv4Scan 0 0 0 base = some a) :
    ipv4CidrToRangeCore (base ++ '/' :: pstr) =
      some ⟨a &&& mask4 p, (a &&& mask4 p) ||| (mask4 p ^^^ 0xFFFFFFFF)⟩ ∧
    mask4 p = 2 ^ 32 - 2 ^ (32 - p) ∧
    ipv4CidrToRange "10.0.0.0/8" = some ⟨167772160, 184549375⟩ := by
  refine ⟨ipv4CidrToRangeCore_canonical base pstr p a hb hne hdig hp hple ha, ?_, by decide⟩
  interval_cases p <;> decide

/-- Witness for C6 at the concrete CIDR "10.0.0.0/8". -/
theorem c6_ipv4_cidr_mask_formula_witness :
    ipv4CidrToRangeCore ("10.0.0.0".toList ++ '/' :: ['8']) =
      some ⟨167772160 &&& mask4 8, (167772160 &&& mask4 8) ||| (mask4 8 ^^^ 0xFFFFFFFF)⟩ ∧
    mask4 8 = 2 ^ 32 - 2 ^ (32 - 8) ∧
    ipv4CidrToRange "10.0.0.0/8" = some ⟨167772160, 184549375⟩ :=
  c6_ipv4_cidr_mask_formula "10.0.0.0".toList ['8'] 8 167772160 (by decide) (by decide)
    (by decide) (by decide) (by decide) (by decide)

/-- C5 is refuted as stated: the empty prefix field coerces through
Number("") to 0 and the hexadecimal field "0x10" to 16, so both are
accepted although the claim requires failure for empty and non-decimal
fields. -/
theorem c5_prefix_field_counterexample :
    ipv4CidrToRange "1.2.3.4/" = some ⟨0, 4294967295⟩ ∧
    ipv4CidrToRange "1.2.3.4/0x10" = some ⟨16908288, 16973823⟩ ∧
    ipv6CidrToRange "::/" =
      some ⟨⟨0, 0, 0, 0⟩, ⟨4294967295, 4294967295, 4294967295, 4294967295⟩⟩ := by
  decide

/-- C5 (amended): each normalizer returns a range exactly when a second
slash field exists, the Number coercion of that field passes the
Number.isInteger and bound checks (at most 32 for IPv4, 128 for IPv6), and
the address part parses; the check rejects exactly the non-integral,
negative nonzero and out-of-bound values while NaN is rejected upstream,
the empty field coerces to the integer 0 and is accepted, and concrete
fractional, out-of-range, negative and malformed fields as well as
unparseable addresses yield null. -/
theorem c5_prefix_field_validation (cidr4 cidr6 : List Char) (j : JsNum) (b : ℕ) :
    ((ipv4CidrToRangeCore cidr4).isSome = true ↔
      ∃ pstr p a, (splitOnChar '/' cidr4)[1]? = some pstr ∧
        checkedPrefixVal (jsNumberOfChars pstr) 32 = some p ∧
        ipv4Scan 0 0 0 ((splitOnChar '/' cidr4).headD []) = some a) ∧
    ((ipv6CidrToRangeCore cidr6).isSome = true ↔
      ∃ pstr p w, (splitOnChar '/' cidr6)[1]? = some pstr ∧
        checkedPrefixVal (jsNumberOfChars pstr) 128 = some p ∧
        ipv6ToPartsCore ((splitOnChar '/' cidr6).headD []) = some w) ∧
    checkedPrefixVal none 32 = none ∧
    (checkedPrefixVal (some j) b = none ↔
      (¬ j.num % j.den = 0 ∨ (j.neg = true ∧ ¬ j.num = 0) ∨ j.num / j.den > b)) ∧
    jsNumber "" = some ⟨false, 0, 1⟩ ∧
    ipv4CidrToRange "1.2.3.4/8.5" = none ∧
    ipv4CidrToRange "1.2.3.4/33" = none ∧
    ipv4CidrToRange "1.2.3.4/-1" = none ∧
    ipv4CidrToRange "1.2.3.4/x" = none ∧
    ipv4CidrToRange "1.2.3/8" = none ∧
    ipv6CidrToRange "::/129" = none ∧
    ipv6CidrToRange "::1::2/64" = none :=
  ⟨ipv4CidrToRangeCore_isSome_iff cidr4, ipv6CidrToRangeCore_isSome_iff cidr6,
    rfl, checkedPrefixVal_none_iff j b, by decide, by decide, by decide, by decide,
    by decide, by decide, by decide, by decide⟩


theorem growSize_of_ge (target fuel sz : ℕ) (h : ¬ sz < target) :
    growSize target fuel sz = sz := by
  cases fuel with
  | zero => rfl
  | succ f => rw [growSize, if_neg h]

theorem growSize_pow (target : ℕ) :
    ∀ fuel j, target ≤ 2 ^ j + fuel → 2 ^ j < target →
    ∃ k, growSize target fuel (2 ^ j) = 2 ^ k ∧ target ≤ 2 ^ k ∧
      2 ^ (k - 1) < target ∧ 1 ≤ k := by
  intro fuel
  induction fuel with
  | zero =>
    intro j hf hlt
    omega
  | succ f ih =>
    intro j hf hlt
    rw [growSize, if_pos hlt]
    have hpow : 2 ^ j * 2 = 2 ^ (j + 1) := by rw [pow_succ]
    rw [hpow]
    by_cases h2 : 2 ^ (j + 1) < target
    · exact ih (j + 1) (by rw [pow_succ]; have := Nat.one_le_two_pow (n := j); omega) h2
    · refine ⟨j + 1, growSize_of_ge target f _ h2, by omega, by simpa using hlt, by omega⟩

theorem insertProbe_length (v mask : ℕ) :
    ∀ fuel slot (table : List ℕ), (insertProbe v mask fuel slot table).length = table.length := by
  intro fuel
  induction fuel with
  | zero => intro slot table; rfl
  | succ f ih =>
    intro slot table
    rw [insertProbe]
    by_cases h : table.getD slot 0 ≠ 0
    · rw [if_pos h, ih]
    · rw [if_neg h, List.length_set]

theorem count_set_ge (b : ℕ) : ∀ (l : List ℕ) (n a : ℕ), l.count b ≤ (l.set n a).count b + 1 := by
  intro l
  induction l with
  | nil => intro n a; simp
  | cons x xs ih =>
    intro n a
    cases n with
    | zero =>
      simp only [List.set_cons_zero, List.count_cons]
      have : xs.count b ≤ xs.count b + 1 := by omega
      by_cases hx : x = b <;> by_cases ha : a = b <;> simp [hx, ha] <;> omega
    | succ m =>
      simp only [List.set_cons_succ, List.count_cons]
      have := ih m a
      by_cases hx : x = b <;> simp [hx] <;> omega

theorem insertProbe_count (v mask : ℕ) :
    ∀ fuel slot (table : List ℕ),
      table.count 0 ≤ (insertProbe v mask fuel slot table).count 0 + 1 := by
  intro fuel
  induction fuel with
  | zero => intro slot table; rw [insertProbe]; omega
  | succ f ih =>
    intro slot table
    rw [insertProbe]
    by_cases h : table.getD slot 0 ≠ 0
    · rw [if_pos h]; exact ih _ _
    · rw [if_neg h]; exact count_set_ge 0 table slot v

theorem insertProbe_first_empty (v kk N : ℕ) (hN : N = 2 ^ kk) :
    ∀ d fuel slot0 (table : List ℕ), table.length = N → slot0 < N → d < fuel →
    table.getD ((slot0 + d) % N) 0 = 0 →
    (∀ e < d, table.getD ((slot0 + e) % N) 0 ≠ 0) →
    insertProbe v (N - 1) fuel slot0 table = table.set ((slot0 + d) % N) v := by
  have hNpos : 0 < N := by rw [hN]; positivity
  intro d
  induction d with
  | zero =>
    intro fuel slot0 table hlen hs hf h0 _
    cases fuel with
    | zero => omega
    | succ f =>
      have hslot : (slot0 + 0) % N = slot0 := by
        rw [Nat.add_zero, Nat.mod_eq_of_lt hs]
      rw [hslot] at h0 ⊢
      rw [insertProbe, if_neg (by simp only [ne_eq, not_not]; exact h0)]
  | succ e ih =>
    intro fuel slot0 table hlen hs hf h0 hne
    cases fuel with
    | zero => omega
    | succ f =>
      have h0' : table.getD slot0 0 ≠ 0 := by
        have := hne 0 (by omega)
        rwa [Nat.add_zero, Nat.mod_eq_of_lt hs] at this
      rw [insertProbe, if_pos h0']
      have hmask : (slot0 + 1) &&& (N - 1) = (slot0 + 1) % N := by
        rw [hN]; exact Nat.and_pow_two_sub_one_eq_mod _ _
      have hshift : ∀ x, ((slot0 + 1) % N + x) % N = (slot0 + (x + 1)) % N := by
        intro x
        rw [Nat.mod_add_mod]
        congr 1
        omega
      have hrec := ih f ((slot0 + 1) % N) table hlen (Nat.mod_lt _ hNpos) (by omega)
        (by rw [hshift e]; exact h0)
        (by
          intro e' he'
          rw [hshift e']
          exact hne (e' + 1) (by omega))
      rw [hmask, hrec, hshift e]

theorem getD_set_same (l : List ℕ) (s v : ℕ) (hs : s < l.length) :
    (l.set s v).getD s 0 = v := by
  rw [List.getD_eq_getElem (l.set s v) 0 (by rw [List.length_set]; exact hs)]
  exact List.getElem_set_self _

theorem getD_set_other (l : List ℕ) (s t v : ℕ) (h : s ≠ t) :
    (l.set s v).getD t 0 = l.getD t 0 := by
  rw [List.getD_eq_getElem?_getD, List.getElem?_set_ne h, ← List.getD_eq_getElem?_getD]

theorem metaInv_insert (keys : List ℕ) (m kk N : ℕ) (hN : N = 2 ^ kk)
    (table : List ℕ) (hinv : MetaInv keys m N table) (hm : m < N) :
    MetaInv keys (m + 1) N
      (insertProbe (m + 1) (N - 1) N (metaHome (keys.getD m 0) N) table) := by
  have hNpos : 0 < N := by rw [hN]; positivity
  obtain ⟨hlen, hcount, hocc, hpaths⟩ := hinv
  set slot0 := metaHome (keys.getD m 0) N with hslot0def
  have hslot0 : slot0 < N := Nat.mod_lt _ hNpos
  -- an empty slot exists
  have hmem : (0 : ℕ) ∈ table := by
    rw [← List.count_pos_iff]
    omega
  obtain ⟨s, hsl, hs0⟩ := List.mem_iff_getElem.mp hmem
  have hsN : s < N := by omega
  have hsgetD : table.getD s 0 = 0 := by
    rw [List.getD_eq_getElem table 0 hsl]
    exact hs0
  -- an empty slot on the probe path exists
  have hP : ∃ d, table.getD ((slot0 + d) % N) 0 = 0 := by
    refine ⟨(N + s - slot0) % N, ?_⟩
    have h1 : (slot0 + (N + s - slot0) % N) % N = (slot0 + (N + s - slot0)) % N :=
      Nat.add_mod_mod ..
    have h2 : slot0 + (N + s - slot0) = N + s := by omega
    rw [h1, h2, Nat.add_mod_left, Nat.mod_eq_of_lt hsN]
    exact hsgetD
  have hdlt : (N + s - slot0) % N < N := Nat.mod_lt _ hNpos
  set d0 := Nat.find hP with hd0def
  have hd0 : table.getD ((slot0 + d0) % N) 0 = 0 := Nat.find_spec hP
  have hmin : ∀ e < d0, table.getD ((slot0 + e) % N) 0 ≠ 0 :=
    fun e he => Nat.find_min hP he
  have hd0N : d0 < N := by
    have : d0 ≤ (N + s - slot0) % N := Nat.find_min' hP (by
      have h1 : (slot0 + (N + s - slot0) % N) % N = (slot0 + (N + s - slot0)) % N :=
        Nat.add_mod_mod ..
      have h2 : slot0 + (N + s - slot0) = N + s := by omega
      rw [h1, h2, Nat.add_mod_left, Nat.mod_eq_of_lt hsN]
      exact hsgetD)
    omega
  have happly := insertProbe_first_empty (m + 1) kk N hN d0 N slot0 table hlen hslot0 hd0N
    hd0 hmin
  rw [happly]
  set s0 := (slot0 + d0) % N with hs0def
  have hs0N : s0 < N := Nat.mod_lt _ hNpos
  have hs0len : s0 < table.length := by omega
  refine ⟨by rw [List.length_set]; exact hlen, ?_, ?_, ?_⟩
  · have := count_set_ge 0 table s0 (m + 1)
    omega
  · intro t
    by_cases ht : s0 = t
    · rw [← ht, getD_set_same table s0 (m + 1) hs0len]
    · rw [getD_set_other table s0 t (m + 1) ht]
      exact le_trans (hocc t) (by omega)
  · intro j hj
    rcases Nat.lt_succ_iff_lt_or_eq.mp hj with hjm | hjm
    · obtain ⟨d', hd', hval, hbefore⟩ := hpaths j hjm
      refine ⟨d', hd', ?_, ?_⟩
      · have hne : s0 ≠ (metaHome (keys.getD j 0) N + d') % N := by
          intro he
          rw [← he] at hval
          rw [hd0] at hval
          omega
        rw [getD_set_other table _ _ _ hne]
        exact hval
      · intro e he
        have hne : s0 ≠ (metaHome (keys.getD j 0) N + e) % N := by
          intro hee
          exact hbefore e he (by rw [← hee]; exact hd0)
        rw [getD_set_other table _ _ _ hne]
        exact hbefore e he
    · rw [hjm]
      refine ⟨d0, hd0N, ?_, ?_⟩
      · rw [← hslot0def, ← hs0def, getD_set_same table s0 (m + 1) hs0len]
      · intro e he
        have hne : s0 ≠ (slot0 + e) % N := by
          intro hee
          exact hmin e he (by rw [← hee]; exact hd0)
        rw [← hslot0def, getD_set_other table _ _ _ hne]
        exact hmin e he

theorem metaInv_build (keys : List ℕ) (kk N : ℕ) (hN : N = 2 ^ kk) :
    ∀ m, m ≤ N → MetaInv keys m N
      ((List.range m).foldl
        (fun table i =>
          insertProbe (i + 1) (N - 1) N
            (((keys.getD i 0) * 2654435761) % 4294967296 &&& (N - 1)) table)
        (List.replicate N 0)) := by
  have hNpos : 0 < N := by rw [hN]; positivity
  intro m
  induction m with
  | zero =>
    intro _
    simp only [List.range_zero, List.foldl_nil]
    refine ⟨by simp, by simp, ?_, by omega⟩
    intro s
    rcases Nat.lt_or_ge s N with h | h
    · rw [List.getD_eq_getElem (List.replicate N 0) 0 (by simpa using h)]
      simp
    · rw [List.getD_eq_default]
      simp [h]
  | succ m ih =>
    intro hm
    rw [List.range_succ, List.foldl_append, List.foldl_cons, List.foldl_nil]
    have hslot : ((keys.getD m 0) * 2654435761) % 4294967296 &&& (N - 1) =
        metaHome (keys.getD m 0) N := by
      rw [hN, Nat.and_pow_two_sub_one_eq_mod]
      rfl
    rw [hslot]
    exact metaInv_insert keys m kk N hN _ (ih (by omega)) (by omega)

theorem metaLookupGo_hit (idx : Ipv6Index) (kk N count : ℕ) (hN : N = 2 ^ kk)
    (hmask : idx.metaMask = N - 1)
    (hocc : ∀ s, idx.metaTable.getD s 0 ≤ count)
    (hinj : ∀ j1, j1 < count → ∀ j2, j2 < count →
      idx.metaKeys.getD j1 0 = idx.metaKeys.getD j2 0 → j1 = j2)
    (j : ℕ) (hj : j < count) :
    ∀ d fuel slot0, slot0 < N → d < fuel →
      idx.metaTable.getD ((slot0 + d) % N) 0 = j + 1 →
      (∀ e < d, idx.metaTable.getD ((slot0 + e) % N) 0 ≠ 0) →
      metaLookupGo idx (idx.metaKeys.getD j 0) fuel slot0 = some (j : Int) := by
  have hNpos : 0 < N := by rw [hN]; positivity
  intro d
  induction d with
  | zero =>
    intro fuel slot0 hs hf hval _
    cases fuel with
    | zero => omega
    | succ f =>
      rw [Nat.add_zero, Nat.mod_eq_of_lt hs] at hval
      rw [metaLookupGo, hval]
      rw [if_neg (by omega)]
      simp
  | succ e ih =>
    intro fuel slot0 hs hf hval hne
    cases fuel with
    | zero => omega
    | succ f =>
      have h0 : idx.metaTable.getD slot0 0 ≠ 0 := by
        have := hne 0 (by omega)
        rwa [Nat.add_zero, Nat.mod_eq_of_lt hs] at this
      rw [metaLookupGo]
      rw [if_neg h0]
      set stored := idx.metaTable.getD slot0 0 with hstored
      by_cases hkey : idx.metaKeys.getD (stored - 1) 0 = idx.metaKeys.getD j 0
      · rw [if_pos hkey]
        have hstc : stored - 1 < count := by
          have := hocc slot0
          omega
        have := hinj (stored - 1) hstc j hj hkey
        rw [this]
      · rw [if_neg hkey]
        have hshift : ∀ x, ((slot0 + 1) % N + x) % N = (slot0 + (x + 1)) % N := by
          intro x
          rw [Nat.mod_add_mod]
          congr 1
          omega
        have hmm : (slot0 + 1) &&& idx.metaMask = (slot0 + 1) % N := by
          rw [hmask, hN]
          exact Nat.and_pow_two_sub_one_eq_mod _ _
        rw [hmm]
        exact ih f ((slot0 + 1) % N) (Nat.mod_lt _ hNpos) (by omega)
          (by rw [hshift e]; exact hval)
          (fun e' he' => by rw [hshift e']; exact hne (e' + 1) (by omega))

theorem metaLookupGo_miss (idx : Ipv6Index) (kk N count : ℕ) (hN : N = 2 ^ kk)
    (hmask : idx.metaMask = N - 1)
    (hocc : ∀ s, idx.metaTable.getD s 0 ≤ count)
    (p0 : ℕ) (hp0 : ∀ j, j < count → idx.metaKeys.getD j 0 ≠ p0) :
    ∀ d fuel slot0, slot0 < N → d < fuel →
      idx.metaTable.getD ((slot0 + d) % N) 0 = 0 →
      metaLookupGo idx p0 fuel slot0 = some (-1) := by
  have hNpos : 0 < N := by rw [hN]; positivity
  intro d
  induction d with
  | zero =>
    intro fuel slot0 hs hf hval
    cases fuel with
    | zero => omega
    | succ f =>
      rw [Nat.add_zero, Nat.mod_eq_of_lt hs] at hval
      rw [metaLookupGo, hval, if_pos rfl]
  | succ e ih =>
    intro fuel slot0 hs hf hval
    cases fuel with
    | zero => omega
    | succ f =>
      rw [metaLookupGo]
      by_cases h0 : idx.metaTable.getD slot0 0 = 0
      · rw [if_pos h0]
      · rw [if_neg h0]
        set stored := idx.metaTable.getD slot0 0 with hstored
        have hstc : stored - 1 < count := by
          have := hocc slot0
          omega
        rw [if_neg (hp0 (stored - 1) hstc)]
        have hshift : ∀ x, ((slot0 + 1) % N + x) % N = (slot0 + (x + 1)) % N := by
          intro x
          rw [Nat.mod_add_mod]
          congr 1
          omega
        have hmm : (slot0 + 1) &&& idx.metaMask = (slot0 + 1) % N := by
          rw [hmask, hN]
          exact Nat.and_pow_two_sub_one_eq_mod _ _
        rw [hmm]
        exact ih f ((slot0 + 1) % N) (Nat.mod_lt _ hNpos) (by omega)
          (by rw [hshift e]; exact hval)

theorem exists_empty_on_path (table : List ℕ) (N : ℕ) (hNpos : 0 < N)
    (hlen : table.length = N) (slot0 : ℕ) (hs : slot0 < N)
    (hzero : (0 : ℕ) ∈ table) :
    ∃ d < N, table.getD ((slot0 + d) % N) 0 = 0 := by
  obtain ⟨s, hsl, hs0⟩ := List.mem_iff_getElem.mp hzero
  have hsN : s < N := by omega
  refine ⟨(N + s - slot0) % N, Nat.mod_lt _ hNpos, ?_⟩
  have h1 : (slot0 + (N + s - slot0) % N) % N = (slot0 + (N + s - slot0)) % N :=
    Nat.add_mod_mod ..
  have h2 : slot0 + (N + s - slot0) = N + s := by omega
  rw [h1, h2, Nat.add_mod_left, Nat.mod_eq_of_lt hsN, List.getD_eq_getElem table 0 hsl]
  exact hs0

/-- C8: for entry lists with pairwise-distinct 32-bit keys, buildMetaTable
keeps the load factor below one (entryCount < capacity), chooses as capacity
the least power of two at least max(4, the ceiling of 1.3 times entryCount),
sets the mask to capacity - 1, and linear probing terminates within capacity
probes: metaLookup on any inserted key returns that key's entry index and
metaLookup on any key not in the table returns -1. -/
theorem c8_meta_table_probing (entries : List MetaEntry)
    (hdist : (entries.map fun e => e.key % 4294967296).Nodup) :
    entries.length < (buildMetaTable entries).table.length ∧
    (∃ k, (buildMetaTable entries).table.length = 2 ^ k ∧
      max 4 ((13 * entries.length + 9) / 10) ≤ 2 ^ k ∧
      ∀ j, max 4 ((13 * entries.length + 9) / 10) ≤ 2 ^ j → 2 ^ k ≤ 2 ^ j) ∧
    (buildMetaTable entries).mask = (buildMetaTable entries).table.length - 1 ∧
    (∀ i, i < entries.length →
      metaLookup (buildMetaTable entries).table.length
        (ipv6IndexOfMeta (buildMetaTable entries))
        ((buildMetaTable entries).keys.getD i 0) = some (i : Int)) ∧
    (∀ p0, p0 ∉ (buildMetaTable entries).keys →
      metaLookup (buildMetaTable entries).table.length
        (ipv6IndexOfMeta (buildMetaTable entries)) p0 = some (-1)) := by
  set count := entries.length with hcountdef
  set target := max 4 ((13 * count + 9) / 10) with htargetdef
  have h4 : 4 ≤ target := le_max_left _ _
  have h13 : (13 * count + 9) / 10 ≤ target := le_max_right _ _
  have hct : count + 1 ≤ target := by
    rcases Nat.eq_zero_or_pos count with hc | hc
    · omega
    · have : count + 1 ≤ (13 * count + 9) / 10 := by omega
      omega
  obtain ⟨kk, hgrow, hge, hlt1, hk1⟩ :=
    growSize_pow target target 0 (by simp only [pow_zero]; omega) (by simp only [pow_zero]; omega)
  rw [pow_zero] at hgrow
  set N := 2 ^ kk with hNdef
  have hNpos : 0 < N := by positivity
  have hcN : count < N := by omega
  set km := entries.map fun e => e.key % 4294967296 with hkmdef
  have hkml : km.length = count := by simp [hkmdef, hcountdef]
  have hkeys : (buildMetaTable entries).keys = km := rfl
  have htable : (buildMetaTable entries).table =
      (List.range count).foldl
        (fun table i =>
          insertProbe (i + 1) (growSize target target 1 - 1) (growSize target target 1)
            (((km.getD i 0) * 2654435761) % 4294967296 &&& (growSize target target 1 - 1))
            table)
        (List.replicate (growSize target target 1) 0) := rfl
  have hmask : (buildMetaTable entries).mask = growSize target target 1 - 1 := rfl
  rw [hgrow] at htable
  have hinv := metaInv_build km kk N rfl count (by omega)
  rw [← htable] at hinv
  obtain ⟨hlen, hcnt, hocc, hpaths⟩ := hinv
  have hinj : ∀ j1, j1 < count → ∀ j2, j2 < count →
      km.getD j1 0 = km.getD j2 0 → j1 = j2 := by
    intro j1 h1 j2 h2 he
    have h1' : j1 < km.length := by omega
    have h2' : j2 < km.length := by omega
    rw [List.getD_eq_getElem km 0 h1', List.getD_eq_getElem km 0 h2'] at he
    exact (List.Nodup.getElem_inj_iff hdist).mp he
  have hidxT : (ipv6IndexOfMeta (buildMetaTable entries)).metaTable =
      (buildMetaTable entries).table := rfl
  have hidxK : (ipv6IndexOfMeta (buildMetaTable entries)).metaKeys = km := rfl
  have hidxM : (ipv6IndexOfMeta (buildMetaTable entries)).metaMask = N - 1 := by
    rw [← hgrow]; rfl
  refine ⟨by omega, ⟨kk, by omega, hge, ?_⟩, by omega, ?_, ?_⟩
  · intro j hj
    by_cases h : kk ≤ j
    · exact Nat.pow_le_pow_right (by norm_num) h
    · exfalso
      have : 2 ^ j ≤ 2 ^ (kk - 1) := Nat.pow_le_pow_right (by norm_num) (by omega)
      omega
  · intro i hi
    rw [metaLookup, if_neg (by rw [hidxT]; omega)]
    obtain ⟨d, hdN, hval, hbefore⟩ := hpaths i hi
    have hhome : ((buildMetaTable entries).keys.getD i 0 * 2654435761) % 4294967296 &&&
        (ipv6IndexOfMeta (buildMetaTable entries)).metaMask =
        metaHome (km.getD i 0) N := by
      rw [hidxM, hkeys, hNdef, Nat.and_pow_two_sub_one_eq_mod]
      rfl
    rw [hhome]
    exact metaLookupGo_hit (ipv6IndexOfMeta (buildMetaTable entries)) kk N count rfl
      hidxM (by rw [hidxT]; exact hocc) (by rw [hidxK]; exact hinj) i hi d
      ((buildMetaTable entries).table.length)
      (metaHome (km.getD i 0) N) (Nat.mod_lt _ hNpos) (by omega)
      (by rw [hidxT]; exact hval) (by rw [hidxT]; exact hbefore)
  · intro p0 hp0
    rw [metaLookup, if_neg (by rw [hidxT]; omega)]
    have hp0' : ∀ j, j < count → km.getD j 0 ≠ p0 := by
      intro j hj he
      apply hp0
      rw [hkeys]
      rw [List.getD_eq_getElem km 0 (by omega)] at he
      rw [← he]
      exact List.getElem_mem _
    have hzero : (0 : ℕ) ∈ (buildMetaTable entries).table := by
      rw [← List.count_pos_iff]
      omega
    have hhome : (p0 * 2654435761) % 4294967296 &&&
        (ipv6IndexOfMeta (buildMetaTable entries)).metaMask = metaHome p0 N := by
      rw [hidxM, hNdef, Nat.and_pow_two_sub_one_eq_mod]
      rfl
    rw [hhome]
    obtain ⟨d, hdN, hval⟩ := exists_empty_on_path (buildMetaTable entries).table N hNpos
      hlen (metaHome p0 N) (Nat.mod_lt _ hNpos) hzero
    exact metaLookupGo_miss (ipv6IndexOfMeta (buildMetaTable entries)) kk N count rfl
      hidxM (by rw [hidxT]; exact hocc) p0 hp0' d
      ((buildMetaTable entries).table.length) (metaHome p0 N)
      (Nat.mod_lt _ hNpos) (by omega) (by rw [hidxT]; exact hval)

/-- Witness for C8 at a concrete two-entry table (keys 5 and 9, capacity 4). -/
theorem c8_meta_table_probing_witness :
    [MetaEntry.mk 5 1 0 2, MetaEntry.mk 9 2 2 3].length <
      (buildMetaTable [MetaEntry.mk 5 1 0 2, MetaEntry.mk 9 2 2 3]).table.length ∧
    (∃ k, (buildMetaTable [MetaEntry.mk 5 1 0 2, MetaEntry.mk 9 2 2 3]).table.length = 2 ^ k ∧
      max 4 ((13 * [MetaEntry.mk 5 1 0 2, MetaEntry.mk 9 2 2 3].length + 9) / 10) ≤ 2 ^ k ∧
      ∀ j, max 4 ((13 * [MetaEntry.mk 5 1 0 2, MetaEntry.mk 9 2 2 3].length + 9) / 10) ≤ 2 ^ j →
        2 ^ k ≤ 2 ^ j) ∧
    (buildMetaTable [MetaEntry.mk 5 1 0 2, MetaEntry.mk 9 2 2 3]).mask =
      (buildMetaTable [MetaEntry.mk 5 1 0 2, MetaEntry.mk 9 2 2 3]).table.length - 1 ∧
    (∀ i, i < [MetaEntry.mk 5 1 0 2, MetaEntry.mk 9 2 2 3].length →
      metaLookup (buildMetaTable [MetaEntry.mk 5 1 0 2, MetaEntry.mk 9 2 2 3]).table.length
        (ipv6IndexOfMeta (buildMetaTable [MetaEntry.mk 5 1 0 2, MetaEntry.mk 9 2 2 3]))
        ((buildMetaTable [MetaEntry.mk 5 1 0 2, MetaEntry.mk 9 2 2 3]).keys.getD i 0) =
        some (i : Int)) ∧
    (∀ p0, p0 ∉ (buildMetaTable [MetaEntry.mk 5 1 0 2, MetaEntry.mk 9 2 2 3]).keys →
      metaLookup (buildMetaTable [MetaEntry.mk 5 1 0 2, MetaEntry.mk 9 2 2 3]).table.length
        (ipv6IndexOfMeta (buildMetaTable [MetaEntry.mk 5 1 0 2, MetaEntry.mk 9 2 2 3])) p0 =
        some (-1)) :=
  c8_meta_table_probing [MetaEntry.mk 5 1 0 2, MetaEntry.mk 9 2 2 3] (by decide)

/-! ## Claim C3 about the refresh lifecycles -/

theorem batchTrace_nil (fuel : ℕ) (t : ModJs.ITree) : ModJs.batchTrace fuel t [] = [] := by
  cases fuel with
  | zero => rfl
  | succ f => rfl

theorem batchTrace_last (fuel : ℕ) :
    ∀ (rest : List String) (t : ModJs.ITree), rest.length ≤ fuel → rest ≠ [] →
      ∃ pre, ModJs.batchTrace fuel t rest = pre ++ [rest.foldl ModJs.insertCidr t] := by
  induction fuel with
  | zero =>
    intro rest t hlen hne
    cases rest with
    | nil => exact absurd rfl hne
    | cons c cs => simp at hlen
  | succ f ih =>
    intro rest t hlen hne
    cases rest with
    | nil => exact absurd rfl hne
    | cons c cs =>
      rw [ModJs.batchTrace]
      · by_cases hdrop : (c :: cs).drop 500 = []
        · refine ⟨[], ?_⟩
          rw [hdrop, batchTrace_nil]
          have heq : (c :: cs).foldl ModJs.insertCidr t =
              ((c :: cs).take 500).foldl ModJs.insertCidr t := by
            conv_lhs => rw [← List.take_append_drop 500 (c :: cs)]
            rw [hdrop, List.append_nil]
          rw [heq, List.nil_append]
        · have hlen2 : ((c :: cs).drop 500).length ≤ f := by
            rw [List.length_drop]
            have hl := hlen
            simp only [List.length_cons] at hl ⊢
            omega
          obtain ⟨pre, hpre⟩ := ih ((c :: cs).drop 500)
            (((c :: cs).take 500).foldl ModJs.insertCidr t) hlen2 hdrop
          refine ⟨((c :: cs).take 500).foldl ModJs.insertCidr t :: pre, ?_⟩
          rw [hpre]
          have heq : ((c :: cs).drop 500).foldl ModJs.insertCidr
              (((c :: cs).take 500).foldl ModJs.insertCidr t) =
              (c :: cs).foldl ModJs.insertCidr t := by
            rw [← List.foldl_append, List.take_append_drop]
          rw [heq]
          rfl
      · simp

/-- C3 is refuted as stated: mod.js assigns a fresh empty IntervalTree to
the active binding before awaiting the batched insertion, so the second
observable state of a successful refresh is the empty tree; a query for
10.0.0.1 answers true against the old tree built from 10.0.0.0/8 and false
against that mid-refresh state, so a membership query can observe an index
that is not fully built. -/
theorem c3_mid_refresh_counterexample :
    ModJs.isVpn (ModJs.insertCidr ModJs.ITree.leaf "10.0.0.0/8") "10.0.0.1" = true ∧
    (ModJs.refreshStates (ModJs.insertCidr ModJs.ITree.leaf "10.0.0.0/8")
        (some ["10.0.0.0/8"])).getD 1 ModJs.ITree.leaf = ModJs.ITree.leaf ∧
    ModJs.isVpn ModJs.ITree.leaf "10.0.0.1" = false := by
  refine ⟨by decide, by decide, by decide⟩

/-- C3 (amended): part_001's refresh is all-or-nothing — when both fetches
succeed the observable states are the unchanged old pair during the two
fetches followed by the pair of fully built indexes assigned in one
synchronous run, and when either fetch fails every observable state is the
unchanged old pair.  For mod.js only the weaker guarantees hold: a failed
fetch leaves the old tree in force, and a successful refresh ends with the
fully built tree; in between mod.js publishes the empty tree and each
partial batch state, as the counterexample shows. -/
theorem c3_refresh_atomicity (st : Ipv4Index × Ipv6Index)
    (f4 f6 : Option (List String)) (t0 : ModJs.ITree) (lines : List String) :
    (∀ l4 l6, f4 = some l4 → f6 = some l6 →
      updateListStates st f4 f6 =
        [st, st, (buildIpv4IndexFromCidrs l4, buildIpv6IndexFromCidrs l6)]) ∧
    ((f4 = none ∨ f6 = none) → ∀ s ∈ updateListStates st f4 f6, s = st) ∧
    ModJs.refreshStates t0 none = [t0] ∧
    (ModJs.refreshStates t0 (some lines)).getLast? =
      some (lines.foldl ModJs.insertCidr ModJs.ITree.leaf) := by
  refine ⟨?_, ?_, rfl, ?_⟩
  · intro l4 l6 h4 h6
    rw [h4, h6]
    rfl
  · intro hfail s hs
    rcases hfail with h | h
    · rw [h] at hs
      simp only [updateListStates, List.mem_singleton] at hs
      exact hs
    · rw [h] at hs
      cases f4 with
      | none => simp only [updateListStates, List.mem_singleton] at hs; exact hs
      | some l4 =>
        simp only [updateListStates, List.mem_cons, List.not_mem_nil, or_false] at hs
        rcases hs with h' | h' <;> exact h'
  · rw [ModJs.refreshStates]
    cases hl : lines with
    | nil => rfl
    | cons c cs =>
      obtain ⟨pre, hpre⟩ := batchTrace_last (c :: cs).length (c :: cs) ModJs.ITree.leaf
        (le_refl _) (by simp)
      rw [hpre]
      rw [show t0 :: ModJs.ITree.leaf ::
          (pre ++ [(c :: cs).foldl ModJs.insertCidr ModJs.ITree.leaf]) =
          (t0 :: ModJs.ITree.leaf :: pre) ++
            [(c :: cs).foldl ModJs.insertCidr ModJs.ITree.leaf] from rfl]
      rw [List.getLast?_concat]
